import Mathlib

/-!
# Verification of the Clima-Sense concurrency-admission and result-caching layer

This file gives a shallow embedding, in Lean 4, of the core of the
Clima-Sense AI weather-forecast backend:

* `ai-backend/graphcast/request_queue.py` — a bounded-concurrency priority
  queue (`RequestQueueManager`) built on `asyncio.PriorityQueue` (CPython's
  `heapq`) plus an `asyncio.Semaphore`;
* `ai-backend/graphcast/cache_manager.py` — a TTL file cache
  (`ForecastCacheManager`);
* `ai-backend/graphcast/data_models.py` — the forecast payload model and its
  `to_dict`/`from_dict` serialization.

Pure functions of the source are translated as Lean functions (Python floats
appear as `ℚ`, wall-clock instants as `ℚ`, calendar-day buckets as `Int`);
the concurrent parts of `request_queue.py` are translated as explicit
transition systems whose steps are the await-free atomic segments of the
asyncio coroutines.  Fallible Python code (code that can raise) returns
`Option`/`Except`.
-/

set_option autoImplicit false

namespace ClimaSense

/-!
## Part 1 — CPython `heapq`, as used by `asyncio.PriorityQueue`

`RequestQueueManager.__init__` creates `asyncio.PriorityQueue(maxsize)`,
whose `_put`/`_get` are exactly `heapq.heappush`/`heapq.heappop` on a plain
Python list, comparing items with `<` only.  The functions below are a
line-by-line translation of CPython's `heapq._siftdown`, `heapq._siftup`,
`heappush` and `heappop`, parameterized by the item comparison `lt`
(which for queued requests is `QueuedRequest.__lt__`).

A Python in-place list write `heap[pos] = v` is `List.set pos v`; an
in-range read `heap[pos]` is `List.getD pos d` (the default `d` is never
relevant because every read is guarded to be in range, as in the source).
-/

/-- CPython `heapq._siftdown(heap, startpos, pos)`: bubble the carried
`newitem` up from `pos` toward `startpos`, moving larger parents down.
The source reads `newitem = heap[pos]` once and carries it; here it is an
explicit argument. -/
def siftdown {α : Type} (lt : α → α → Bool) (heap : List α) (startpos pos : Nat)
    (newitem : α) : List α :=
  if h : startpos < pos then
    let parentpos := (pos - 1) / 2
    let parent := heap.getD parentpos newitem
    if lt newitem parent then
      siftdown lt (heap.set pos parent) startpos parentpos newitem
    else
      heap.set pos newitem
  else
    heap.set pos newitem
termination_by pos
decreasing_by omega

/-- The loop of CPython `heapq._siftup(heap, pos)`: starting from the hole
at `pos` (whose logical content is the carried `newitem`), repeatedly move
the smaller child up into the hole until the hole reaches a leaf, then put
`newitem` in the leaf and bubble it up with `_siftdown`. -/
def siftupLoop {α : Type} (lt : α → α → Bool) (heap : List α) (startpos pos : Nat)
    (newitem : α) : List α :=
  let endpos := heap.length
  let childpos := 2 * pos + 1
  if h : childpos < endpos then
    let rightpos := childpos + 1
    let c :=
      if hr : rightpos < endpos then
        if lt (heap.getD childpos newitem) (heap.getD rightpos newitem) then childpos
        else rightpos
      else childpos
    siftupLoop lt (heap.set pos (heap.getD c newitem)) startpos c newitem
  else
    siftdown lt (heap.set pos newitem) startpos pos newitem
termination_by heap.length - pos
decreasing_by
  simp only [List.length_set]
  split <;> (try split) <;> omega

/-- CPython `heapq.heappush(heap, item)`. -/
def heappush {α : Type} (lt : α → α → Bool) (heap : List α) (item : α) : List α :=
  siftdown lt (heap ++ [item]) 0 heap.length item

/-- CPython `heapq.heappop(heap)`: returns `none` on the empty list (the
source raises `IndexError`, which `asyncio.Queue.get` never triggers
because it waits for a nonempty queue). -/
def heappop {α : Type} (lt : α → α → Bool) (heap : List α) : Option (α × List α) :=
  match heap.getLast? with
  | none => none
  | some lastelt =>
    match heap.dropLast with
    | [] => some (lastelt, [])
    | x :: xs => some (x, siftupLoop lt ((x :: xs).set 0 lastelt) 0 0 lastelt)

/-- Pop every element of the heap, with explicit fuel. -/
def popAllFuel {α : Type} (lt : α → α → Bool) : Nat → List α → List α
  | 0, _ => []
  | fuel + 1, heap =>
    match heappop lt heap with
    | none => []
    | some (x, rest) => x :: popAllFuel lt fuel rest

/-- The sequence of elements obtained by popping the heap until empty. -/
def popAll {α : Type} (lt : α → α → Bool) (heap : List α) : List α :=
  popAllFuel lt heap.length heap

/-!
## Part 2 — `QueuedRequest` and its ordering (`request_queue.py`, lines 17–40)
-/

/-- `RequestPriority` (`request_queue.py` lines 17–21). -/
inductive RequestPriority where
  | HIGH
  | NORMAL
  | LOW
deriving DecidableEq

/-- `RequestPriority.value`: `HIGH = 1`, `NORMAL = 2`, `LOW = 3`. -/
def RequestPriority.value : RequestPriority → Nat
  | .HIGH => 1
  | .NORMAL => 2
  | .LOW => 3

/-- The fields of `QueuedRequest` relevant to queue ordering: `request_id`
(caller-supplied string), `priority`, and `queued_at` (a `time.time()`
instant, modelled as a rational).  The `task`/`args`/`kwargs`/`future`
fields never take part in `__lt__` and are omitted here. -/
structure QueuedRequest where
  request_id : String
  priority : RequestPriority
  queued_at : ℚ
deriving DecidableEq

/-- `QueuedRequest.__lt__` (`request_queue.py` lines 35–40): compare by
priority ordinal, then by `queued_at`.  Note there is no further
tie-breaker (no insertion counter). -/
def qlt (a b : QueuedRequest) : Bool :=
  if a.priority.value ≠ b.priority.value then
    decide (a.priority.value < b.priority.value)
  else
    decide (a.queued_at < b.queued_at)

/-- The order in which the dispatch loop `_process_queue` starts requests,
for a batch `rs` that is entirely buffered before the loop runs (all
requests submitted concurrently, `capacity ≥` batch size) with
`concurrency_limit = 1`: the loop pops requests one by one from the
`asyncio.PriorityQueue` (heapq `heappop`) and spawns each `_execute_request`
in pop order; with one execution slot, the `asyncio.Semaphore` admits the
spawned executors in FIFO spawn order, so dispatch start order is exactly
heap pop order.  The heap itself is built by the `queue.put` calls
(`heappush`) in submission order. -/
def dispatchOrder (rs : List QueuedRequest) : List QueuedRequest :=
  popAll qlt (rs.foldl (fun h r => heappush qlt h r) [])

/-- The stable sort of a request batch by `(priority.value, queued_at)`
ascending, ties broken by submission order — the order the specification
asserts for dispatch starts.  `List.mergeSort` is a stable sort. -/
def stableSortRequests (rs : List QueuedRequest) : List QueuedRequest :=
  rs.mergeSort (fun a b => !(qlt b a))

/-!
## Part 3 — correctness of the heapq embedding

Auxiliary lemmas: the heap operations preserve length and multiset
contents, maintain the binary-heap shape invariant, and popping everything
yields a sorted permutation.
-/

theorem get?_eq_some_getD {α : Type} (l : List α) (i : Nat) (d : α) (h : i < l.length) :
    l.get? i = some (l.getD i d) := by
  cases hv : l.get? i with
  | none => exact absurd (List.get?_eq_none.mp hv) (by omega)
  | some v => rw [show l.getD i d = (l.get? i).getD d from rfl, hv]; rfl

theorem set_get?_eq_self {α : Type} {l : List α} {i : Nat} {a : α} (h : l.get? i = some a) :
    l.set i a = l := by
  induction l generalizing i with
  | nil => simp at h
  | cons x t ih =>
    cases i with
    | zero => simp_all
    | succ i => simp only [List.get?] at h; simp [ih h]

theorem siftdown_length {α : Type} (lt : α → α → Bool) :
    ∀ (pos : Nat) (heap : List α) (startpos : Nat) (newitem : α),
      (siftdown lt heap startpos pos newitem).length = heap.length := by
  intro pos
  induction pos using Nat.strong_induction_on with
  | _ pos ih =>
    intro heap startpos newitem
    rw [siftdown]
    split
    · dsimp only
      split
      · rw [ih ((pos - 1) / 2) (by omega)]; simp
      · simp
    · simp

theorem siftupLoop_length {α : Type} (lt : α → α → Bool) :
    ∀ (n : Nat) (heap : List α) (pos startpos : Nat) (newitem : α),
      heap.length - pos ≤ n →
      (siftupLoop lt heap startpos pos newitem).length = heap.length := by
  intro n
  induction n with
  | zero =>
    intro heap pos startpos newitem hn
    rw [siftupLoop]
    split
    · omega
    · rw [siftdown_length]; simp
  | succ n ih =>
    intro heap pos startpos newitem hn
    rw [siftupLoop]
    split
    · dsimp only
      split
      · split
        · rw [ih _ _ _ _ (by simp; omega)]; simp
        · rw [ih _ _ _ _ (by simp; omega)]; simp
      · rw [ih _ _ _ _ (by simp; omega)]; simp
    · rw [siftdown_length]; simp

theorem cons_set_perm {α : Type} :
    ∀ (t : List α) (k : Nat) (a b : α), k < t.length →
      List.Perm (a :: t.set k b) (b :: t.set k a) := by
  intro t
  induction t with
  | nil => intro k a b h; simp at h
  | cons y t ih =>
    intro k a b h
    cases k with
    | zero => simpa using List.Perm.swap b a t
    | succ k =>
      simp only [List.set]
      exact (List.Perm.swap y a _).trans
        (((ih k a b (by simpa using h)).cons y).trans (List.Perm.swap b y _))

theorem set_set_perm {α : Type} :
    ∀ (l : List α) (i j : Nat) (a b : α), i < l.length → j < l.length → i ≠ j →
      List.Perm ((l.set i a).set j b) ((l.set i b).set j a) := by
  intro l
  induction l with
  | nil => intro i j a b hi _ _; simp at hi
  | cons x t ih =>
    intro i j a b hi hj hij
    cases i with
    | zero =>
      cases j with
      | zero => exact absurd rfl hij
      | succ j => simpa using cons_set_perm t j a b (by simpa using hj)
    | succ i =>
      cases j with
      | zero => simpa using cons_set_perm t i b a (by simpa using hi)
      | succ j =>
        simpa using (ih i j a b (by simpa using hi) (by simpa using hj) (by omega)).cons x

theorem siftdown_perm {α : Type} (lt : α → α → Bool) :
    ∀ (pos : Nat) (heap : List α) (newitem : α), pos < heap.length →
      List.Perm (siftdown lt heap 0 pos newitem) (heap.set pos newitem) := by
  intro pos
  induction pos using Nat.strong_induction_on with
  | _ pos ih =>
    intro heap newitem hpos
    rw [siftdown]
    split
    · dsimp only
      split
      · refine ((ih ((pos - 1) / 2) (by omega)) _ newitem (by simp; omega)).trans ?_
        refine (set_set_perm heap pos ((pos - 1) / 2)
          (heap.getD ((pos - 1) / 2) newitem) newitem hpos (by omega) (by omega)).trans ?_
        rw [set_get?_eq_self (by
          rw [List.get?_set_ne _ _ (by omega : pos ≠ (pos - 1) / 2)]
          exact get?_eq_some_getD heap ((pos - 1) / 2) newitem (by omega))]
      · exact List.Perm.refl _
    · exact List.Perm.refl _

theorem siftupLoop_perm {α : Type} (lt : α → α → Bool) :
    ∀ (n : Nat) (heap : List α) (pos : Nat) (newitem : α),
      heap.length - pos ≤ n → pos < heap.length →
      List.Perm (siftupLoop lt heap 0 pos newitem) (heap.set pos newitem) := by
  intro n
  induction n with
  | zero => intro heap pos newitem hn hpos; omega
  | succ n ih =>
    intro heap pos newitem hn hpos
    have key : ∀ c : Nat, pos < c → c < heap.length →
        List.Perm ((heap.set pos (heap.getD c newitem)).set c newitem)
          (heap.set pos newitem) := by
      intro c h1 h2
      refine (set_set_perm heap pos c (heap.getD c newitem) newitem hpos h2 (by omega)).trans ?_
      rw [set_get?_eq_self (by
        rw [List.get?_set_ne _ _ (by omega : pos ≠ c)]
        exact get?_eq_some_getD heap c newitem h2)]
    rw [siftupLoop]
    split
    · dsimp only
      split
      · split
        · exact (ih _ _ newitem (by simp; omega) (by simp; omega)).trans
            (key (2 * pos + 1) (by omega) (by omega))
        · exact (ih _ _ newitem (by simp; omega) (by simp; omega)).trans
            (key (2 * pos + 1 + 1) (by omega) (by assumption))
      · exact (ih _ _ newitem (by simp; omega) (by simp; omega)).trans
          (key (2 * pos + 1) (by omega) (by omega))
    · refine (siftdown_perm lt pos _ newitem (by simpa using hpos)).trans ?_
      rw [List.set_set]

theorem heappush_perm {α : Type} (lt : α → α → Bool) (heap : List α) (item : α) :
    List.Perm (heappush lt heap item) (item :: heap) := by
  unfold heappush
  refine (siftdown_perm lt heap.length (heap ++ [item]) item (by simp)).trans ?_
  rw [set_get?_eq_self (by
    rw [List.get?_append_right (by omega)]
    simp)]
  exact List.perm_append_singleton item heap

theorem heappop_eq_none_iff {α : Type} (lt : α → α → Bool) (heap : List α) :
    heappop lt heap = none ↔ heap = [] := by
  unfold heappop
  cases hl : heap.getLast? with
  | none => simpa using List.getLast?_eq_none_iff.mp hl
  | some lastelt =>
    have hne : heap ≠ [] := by
      intro e; rw [e] at hl; simp at hl
    cases heap.dropLast with
    | nil => simpa using hne
    | cons z zs => simpa using hne

theorem heappop_perm {α : Type} (lt : α → α → Bool) (heap : List α) (x : α) (rest : List α)
    (h : heappop lt heap = some (x, rest)) : List.Perm (x :: rest) heap := by
  unfold heappop at h
  cases hl : heap.getLast? with
  | none => rw [hl] at h; exact absurd h (by simp)
  | some lastelt =>
    rw [hl] at h
    have hne : heap ≠ [] := by
      intro e; rw [e] at hl; simp at hl
    have hlast : heap.getLast hne = lastelt := by
      rw [List.getLast?_eq_getLast heap hne] at hl
      exact Option.some_injective _ hl
    have hsplit : heap.dropLast ++ [lastelt] = heap := by
      rw [← hlast]; exact List.dropLast_concat_getLast hne
    cases hd : heap.dropLast with
    | nil =>
      rw [hd] at h hsplit
      simp only [Option.some_inj, Prod.mk.injEq] at h
      rw [← h.1, ← h.2, ← hsplit]
      exact List.Perm.refl _
    | cons z zs =>
      rw [hd] at h hsplit
      simp only [Option.some_inj, Prod.mk.injEq] at h
      have hperm : List.Perm rest ((z :: zs).set 0 lastelt) := by
        rw [← h.2]
        have := siftupLoop_perm lt ((z :: zs).set 0 lastelt).length
          ((z :: zs).set 0 lastelt) 0 lastelt (by omega) (by simp)
        simpa [List.set_set] using this
      rw [← h.1, ← hsplit]
      refine ((hperm.cons z).trans ?_)
      simp only [List.set]
      exact (List.perm_append_singleton lastelt zs).symm.cons z

theorem heappop_length {α : Type} (lt : α → α → Bool) (heap : List α) (x : α) (rest : List α)
    (h : heappop lt heap = some (x, rest)) : rest.length + 1 = heap.length := by
  simpa using (heappop_perm lt heap x rest h).length_eq

theorem popAllFuel_perm {α : Type} (lt : α → α → Bool) :
    ∀ (n : Nat) (heap : List α), heap.length ≤ n →
      List.Perm (popAllFuel lt n heap) heap := by
  intro n
  induction n with
  | zero =>
    intro heap h
    have : heap = [] := List.length_eq_zero.mp (by omega)
    simp [this, popAllFuel]
  | succ n ih =>
    intro heap h
    rw [popAllFuel]
    cases hp : heappop lt heap with
    | none =>
      rw [(heappop_eq_none_iff lt heap).mp hp]
    | some p =>
      obtain ⟨x, rest⟩ := p
      have hlen := heappop_length lt heap x rest hp
      exact ((ih rest (by omega)).cons x).trans (heappop_perm lt heap x rest hp)

theorem popAll_perm {α : Type} (lt : α → α → Bool) (heap : List α) :
    List.Perm (popAll lt heap) heap :=
  popAllFuel_perm lt heap.length heap (Nat.le_refl _)

theorem lt_length_of_get?_eq_some {α : Type} {l : List α} {j : Nat} {x : α}
    (h : l.get? j = some x) : j < l.length := by
  by_contra hc
  rw [List.get?_eq_none.mpr (by omega)] at h
  exact absurd h (by simp)

/-- `j` is a binary-heap child index of `i` in CPython's array layout. -/
def childIdx (i j : Nat) : Prop := j = 2 * i + 1 ∨ j = 2 * i + 2

theorem childIdx_parent {i j : Nat} (hc : childIdx i j) : i = (j - 1) / 2 ∧ i < j := by
  rcases hc with h | h <;> omega

theorem childIdx_of_pos {j : Nat} (hj : 0 < j) : childIdx ((j - 1) / 2) j := by
  unfold childIdx; omega

/-- The `heapq` shape invariant: no child is `<` its parent. -/
def IsHeap {α : Type} (lt : α → α → Bool) (h : List α) : Prop :=
  ∀ i j xi xj, childIdx i j → h.get? i = some xi → h.get? j = some xj → lt xj xi = false

/-- The comparison `lt` is a strict weak order (which `QueuedRequest.__lt__`
is, being lexicographic on `(priority.value, queued_at)`). -/
structure LtOrder {α : Type} (lt : α → α → Bool) : Prop where
  asymm : ∀ a b, lt a b = true → lt b a = false
  lt_trans : ∀ a b c, lt a b = true → lt b c = true → lt a c = true
  negtrans : ∀ a b c, lt a b = false → lt b c = false → lt a c = false

theorem LtOrder.irrefl {α : Type} {lt : α → α → Bool} (ho : LtOrder lt) (a : α) :
    lt a a = false := by
  cases h : lt a a with
  | false => rfl
  | true => exact h ▸ ho.asymm a a h

/-- Invariant carried by `_siftdown`: the heap with a hole at `pos` whose
logical content is the carried `newitem` `x`.  All parent-child pairs away
from the hole satisfy the heap property; every child of the hole is `≥ x`;
and every child of the hole is `≥` the hole's parent. -/
structure UpInv {α : Type} (lt : α → α → Bool) (h : List α) (pos : Nat) (x : α) : Prop where
  pairs : ∀ i j xi xj, childIdx i j → i ≠ pos → j ≠ pos →
    h.get? i = some xi → h.get? j = some xj → lt xj xi = false
  holeChild : ∀ j xj, childIdx pos j → h.get? j = some xj → lt xj x = false
  holeParentChild : ∀ xp j xj, 0 < pos → h.get? ((pos - 1) / 2) = some xp →
    childIdx pos j → h.get? j = some xj → lt xj xp = false

theorem siftdown_isHeap {α : Type} {lt : α → α → Bool} (ho : LtOrder lt) :
    ∀ (pos : Nat) (heap : List α) (x : α), pos < heap.length →
      UpInv lt heap pos x → IsHeap lt (siftdown lt heap 0 pos x) := by
  intro pos
  induction pos using Nat.strong_induction_on with
  | _ pos ih =>
    intro heap x hpos hinv
    rw [siftdown]
    split
    next h0 =>
      dsimp only
      have hpp : (pos - 1) / 2 < pos := by omega
      have hppl : (pos - 1) / 2 < heap.length := by omega
      have hget : heap.get? ((pos - 1) / 2) = some (heap.getD ((pos - 1) / 2) x) :=
        get?_eq_some_getD heap _ x hppl
      split
      next hlt =>
        refine ih _ hpp _ x (by simp; omega) ?_
        constructor
        · intro i j xi xj hc hipp hjpp hgi hgj
          by_cases hjp : j = pos
          · exact absurd ((childIdx_parent (hjp ▸ hc)).1.trans rfl) hipp
          · rw [List.get?_set_ne _ _ (fun e => hjp e.symm)] at hgj
            by_cases hip : i = pos
            · subst hip
              rw [List.get?_set_eq_of_lt _ hpos] at hgi
              cases hgi
              exact hinv.holeParentChild _ j xj h0 hget hc hgj
            · rw [List.get?_set_ne _ _ (fun e => hip e.symm)] at hgi
              exact hinv.pairs i j xi xj hc hip hjp hgi hgj
        · intro j xj hc hgj
          by_cases hjp : j = pos
          · subst hjp
            rw [List.get?_set_eq_of_lt _ hpos] at hgj
            cases hgj
            exact ho.asymm x _ hlt
          · rw [List.get?_set_ne _ _ (fun e => hjp e.symm)] at hgj
            cases hxx : lt xj x with
            | false => rfl
            | true =>
              exact absurd (hinv.pairs ((pos - 1) / 2) j _ xj hc (by omega) hjp hget hgj)
                (by rw [ho.lt_trans xj x _ hxx hlt]; simp)
        · intro xp j xj hpp0 hgp hc hgj
          have hgpl : ((pos - 1) / 2 - 1) / 2 < (pos - 1) / 2 := by omega
          rw [List.get?_set_ne _ _ (by omega)] at hgp
          have base : lt (heap.getD ((pos - 1) / 2) x) xp = false :=
            hinv.pairs (((pos - 1) / 2 - 1) / 2) ((pos - 1) / 2) xp _
              (childIdx_of_pos hpp0) (by omega) (by omega) hgp hget
          by_cases hjp : j = pos
          · subst hjp
            rw [List.get?_set_eq_of_lt _ hpos] at hgj
            cases hgj
            exact base
          · rw [List.get?_set_ne _ _ (fun e => hjp e.symm)] at hgj
            have h1 : lt xj (heap.getD ((pos - 1) / 2) x) = false :=
              hinv.pairs ((pos - 1) / 2) j _ xj hc (by omega) hjp hget hgj
            exact ho.negtrans xj _ xp h1 base
      next hlt =>
        simp only [Bool.not_eq_true] at hlt
        intro i j xi xj hc hgi hgj
        by_cases hjp : j = pos
        · subst hjp
          rw [List.get?_set_eq_of_lt _ hpos] at hgj
          cases hgj
          have hi := (childIdx_parent hc).1
          rw [List.get?_set_ne _ _ (by omega)] at hgi
          rw [hi] at hgi
          rw [hget] at hgi
          cases hgi
          exact hlt
        · rw [List.get?_set_ne _ _ (fun e => hjp e.symm)] at hgj
          by_cases hip : i = pos
          · subst hip
            rw [List.get?_set_eq_of_lt _ hpos] at hgi
            cases hgi
            exact hinv.holeChild j xj hc hgj
          · rw [List.get?_set_ne _ _ (fun e => hip e.symm)] at hgi
            exact hinv.pairs i j xi xj hc hip hjp hgi hgj
    next h0 =>
      have hp0 : pos = 0 := by omega
      subst hp0
      intro i j xi xj hc hgi hgj
      have hj0 : j ≠ 0 := by rcases hc with h | h <;> omega
      rw [List.get?_set_ne _ _ (fun e => hj0 e.symm)] at hgj
      by_cases hi0 : i = 0
      · subst hi0
        rw [List.get?_set_eq_of_lt _ hpos] at hgi
        cases hgi
        exact hinv.holeChild j xj hc hgj
      · rw [List.get?_set_ne _ _ (fun e => hi0 e.symm)] at hgi
        exact hinv.pairs i j xi xj hc hi0 hj0 hgi hgj

/-- Invariant carried by the loop of `_siftup`: a hole at `pos`; all
parent-child pairs away from the hole hold, and every child of the hole is
`≥` the hole's parent.  (Unlike `UpInv` there is no relation between the
hole's children and the carried item — that is repaired by the final
`_siftdown` call.) -/
structure DownInv {α : Type} (lt : α → α → Bool) (h : List α) (pos : Nat) : Prop where
  pairs : ∀ i j xi xj, childIdx i j → i ≠ pos → j ≠ pos →
    h.get? i = some xi → h.get? j = some xj → lt xj xi = false
  holeParentChild : ∀ xp j xj, 0 < pos → h.get? ((pos - 1) / 2) = some xp →
    childIdx pos j → h.get? j = some xj → lt xj xp = false

theorem downInv_step {α : Type} {lt : α → α → Bool} {heap : List α} {pos c : Nat} (x : α)
    (hpos : pos < heap.length) (hc : childIdx pos c) (hcl : c < heap.length)
    (hinv : DownInv lt heap pos)
    (hmin : ∀ o xo, childIdx pos o → o ≠ c → heap.get? o = some xo →
      lt xo (heap.getD c x) = false) :
    DownInv lt (heap.set pos (heap.getD c x)) c := by
  have hposc : pos < c := (childIdx_parent hc).2
  have hgc : heap.get? c = some (heap.getD c x) := get?_eq_some_getD heap c x hcl
  constructor
  · intro i j xi xj hcij hic hjc hgi hgj
    by_cases hjp : j = pos
    · subst hjp
      rw [List.get?_set_eq_of_lt _ hpos] at hgj
      cases hgj
      have hi := (childIdx_parent hcij).1
      have hpos0 : 0 < j := by rcases hcij with h' | h' <;> omega
      rw [List.get?_set_ne _ _ (by omega)] at hgi
      exact hinv.holeParentChild xi c _ hpos0 (hi ▸ hgi) hc hgc
    · rw [List.get?_set_ne _ _ (fun e => hjp e.symm)] at hgj
      by_cases hip : i = pos
      · subst hip
        rw [List.get?_set_eq_of_lt _ hpos] at hgi
        cases hgi
        exact hmin j xj hcij hjc hgj
      · rw [List.get?_set_ne _ _ (fun e => hip e.symm)] at hgi
        exact hinv.pairs i j xi xj hcij hip hjp hgi hgj
  · intro xp j xj hc0 hgp hcj hgj
    have hpc : (c - 1) / 2 = pos := by rcases hc with h' | h' <;> omega
    rw [hpc, List.get?_set_eq_of_lt _ hpos] at hgp
    cases hgp
    have hjne : j ≠ pos := by rcases hcj with h' | h' <;> omega
    rw [List.get?_set_ne _ _ (fun e => hjne e.symm)] at hgj
    exact hinv.pairs c j _ xj hcj (by omega) hjne hgc hgj

theorem upInv_of_leaf {α : Type} {lt : α → α → Bool} {heap : List α} {pos : Nat} {x : α}
    (hleaf : ¬ 2 * pos + 1 < heap.length)
    (hinv : DownInv lt heap pos) : UpInv lt (heap.set pos x) pos x := by
  constructor
  · intro i j xi xj hc hip hjp hgi hgj
    rw [List.get?_set_ne _ _ (fun e => hip e.symm)] at hgi
    rw [List.get?_set_ne _ _ (fun e => hjp e.symm)] at hgj
    exact hinv.pairs i j xi xj hc hip hjp hgi hgj
  · intro j xj hc hgj
    have := lt_length_of_get?_eq_some hgj
    rw [List.length_set] at this
    rcases hc with h | h <;> omega
  · intro xp j xj hp0 hgp hc hgj
    have := lt_length_of_get?_eq_some hgj
    rw [List.length_set] at this
    rcases hc with h | h <;> omega

theorem siftupLoop_isHeap {α : Type} {lt : α → α → Bool} (ho : LtOrder lt) :
    ∀ (n : Nat) (heap : List α) (pos : Nat) (x : α),
      heap.length - pos ≤ n → pos < heap.length → DownInv lt heap pos →
      IsHeap lt (siftupLoop lt heap 0 pos x) := by
  intro n
  induction n with
  | zero => intro heap pos x hn hpos _; omega
  | succ n ih =>
    intro heap pos x hn hpos hinv
    rw [siftupLoop]
    split
    next h =>
      dsimp only
      split
      next hr =>
        split
        next hlt =>
          refine ih _ _ x (by simp; omega) (by simp; omega) ?_
          refine downInv_step x hpos (Or.inl rfl) (by omega) hinv ?_
          intro o xo hco hoc hgo
          have ho2 : o = 2 * pos + 1 + 1 := by rcases hco with h' | h' <;> omega
          subst ho2
          rw [get?_eq_some_getD heap _ x (by omega)] at hgo
          cases hgo
          exact ho.asymm _ _ hlt
        next hlt =>
          simp only [Bool.not_eq_true] at hlt
          refine ih _ _ x (by simp; omega) (by simp; omega) ?_
          refine downInv_step x hpos (Or.inr (by omega)) (by omega) hinv ?_
          intro o xo hco hoc hgo
          have ho2 : o = 2 * pos + 1 := by rcases hco with h' | h' <;> omega
          subst ho2
          rw [get?_eq_some_getD heap _ x (by omega)] at hgo
          cases hgo
          exact hlt
      next hr =>
        refine ih _ _ x (by simp; omega) (by simp; omega) ?_
        refine downInv_step x hpos (Or.inl rfl) (by omega) hinv ?_
        intro o xo hco hoc hgo
        have := lt_length_of_get?_eq_some hgo
        rcases hco with h' | h' <;> omega
    next h =>
      exact siftdown_isHeap ho pos _ x (by simp; omega) (upInv_of_leaf h hinv)

theorem heappush_isHeap {α : Type} {lt : α → α → Bool} (ho : LtOrder lt) {heap : List α}
    (hh : IsHeap lt heap) (x : α) : IsHeap lt (heappush lt heap x) := by
  unfold heappush
  refine siftdown_isHeap ho heap.length _ x (by simp) ?_
  constructor
  · intro i j xi xj hc hiL hjL hgi hgj
    have hjlt : j < heap.length := by
      have := lt_length_of_get?_eq_some hgj
      simp at this
      omega
    have hilt : i < heap.length := by
      have := (childIdx_parent hc).2
      omega
    rw [List.get?_append hjlt] at hgj
    rw [List.get?_append hilt] at hgi
    exact hh i j xi xj hc hgi hgj
  · intro j xj hc hgj
    have := lt_length_of_get?_eq_some hgj
    simp at this
    rcases hc with h | h <;> omega
  · intro xp j xj _ _ hc hgj
    have := lt_length_of_get?_eq_some hgj
    simp at this
    rcases hc with h | h <;> omega

theorem heappop_cases {α : Type} (lt : α → α → Bool) (heap : List α) (x : α) (rest : List α)
    (h : heappop lt heap = some (x, rest)) :
    (heap = [x] ∧ rest = []) ∨
    ∃ (z : α) (zs : List α) (lastelt : α),
      heap = (z :: zs) ++ [lastelt] ∧ x = z ∧
      rest = siftupLoop lt ((z :: zs).set 0 lastelt) 0 0 lastelt := by
  unfold heappop at h
  cases hl : heap.getLast? with
  | none => rw [hl] at h; exact absurd h (by simp)
  | some lastelt =>
    rw [hl] at h
    have hne : heap ≠ [] := by
      intro e; rw [e] at hl; simp at hl
    have hlast : heap.getLast hne = lastelt := by
      rw [List.getLast?_eq_getLast heap hne] at hl
      exact Option.some_injective _ hl
    have hsplit : heap.dropLast ++ [lastelt] = heap := by
      rw [← hlast]; exact List.dropLast_concat_getLast hne
    cases hd : heap.dropLast with
    | nil =>
      rw [hd] at h hsplit
      simp only [Option.some_inj, Prod.mk.injEq] at h
      exact Or.inl ⟨by rw [← hsplit, h.1]; simp, h.2.symm⟩
    | cons z zs =>
      rw [hd] at h hsplit
      simp only [Option.some_inj, Prod.mk.injEq] at h
      exact Or.inr ⟨z, zs, lastelt, hsplit.symm, h.1.symm, h.2.symm⟩

theorem heappop_root {α : Type} (lt : α → α → Bool) (heap : List α) (x : α) (rest : List α)
    (h : heappop lt heap = some (x, rest)) : heap.get? 0 = some x := by
  rcases heappop_cases lt heap x rest h with ⟨h1, _⟩ | ⟨z, zs, lastelt, h1, h2, _⟩
  · rw [h1]; rfl
  · rw [h1, h2]; rfl

theorem heappop_isHeap {α : Type} {lt : α → α → Bool} (ho : LtOrder lt) {heap : List α}
    (hh : IsHeap lt heap) {x : α} {rest : List α}
    (h : heappop lt heap = some (x, rest)) : IsHeap lt rest := by
  rcases heappop_cases lt heap x rest h with ⟨_, h2⟩ | ⟨z, zs, lastelt, h1, _, h3⟩
  · rw [h2]
    intro i j xi xj _ hgi _
    simp at hgi
  · rw [h3]
    refine siftupLoop_isHeap ho ((z :: zs).set 0 lastelt).length _ 0 lastelt (by omega)
      (by simp) ?_
    constructor
    · intro i j xi xj hcij hi0 hj0 hgi hgj
      rw [List.get?_set_ne _ _ (fun e => hi0 e.symm)] at hgi
      rw [List.get?_set_ne _ _ (fun e => hj0 e.symm)] at hgj
      have hgi' : heap.get? i = some xi := by
        rw [h1, List.get?_append (lt_length_of_get?_eq_some hgi)]
        exact hgi
      have hgj' : heap.get? j = some xj := by
        rw [h1, List.get?_append (lt_length_of_get?_eq_some hgj)]
        exact hgj
      exact hh i j xi xj hcij hgi' hgj'
    · intro xp j xj h0 _ _ _
      exact absurd h0 (by omega)

theorem isHeap_root_min {α : Type} {lt : α → α → Bool} (ho : LtOrder lt) {heap : List α}
    (hh : IsHeap lt heap) {r : α} (hr : heap.get? 0 = some r) :
    ∀ (j : Nat) (xj : α), heap.get? j = some xj → lt xj r = false := by
  intro j
  induction j using Nat.strong_induction_on with
  | _ j ih =>
    intro xj hgj
    cases Nat.eq_zero_or_pos j with
    | inl h0 =>
      subst h0
      rw [hr] at hgj
      cases hgj
      exact ho.irrefl r
    | inr hpos =>
      have hp : (j - 1) / 2 < j := by omega
      have hpl : (j - 1) / 2 < heap.length := by
        have := lt_length_of_get?_eq_some hgj
        omega
      have hgp : heap.get? ((j - 1) / 2) = some (heap.getD ((j - 1) / 2) xj) :=
        get?_eq_some_getD heap _ xj hpl
      have h1 : lt xj (heap.getD ((j - 1) / 2) xj) = false :=
        hh _ j _ xj (childIdx_of_pos hpos) hgp hgj
      have h2 : lt (heap.getD ((j - 1) / 2) xj) r = false := ih _ hp _ hgp
      exact ho.negtrans xj _ r h1 h2

theorem popAllFuel_subset {α : Type} (lt : α → α → Bool) :
    ∀ (n : Nat) (heap : List α) (a : α), a ∈ popAllFuel lt n heap → a ∈ heap := by
  intro n
  induction n with
  | zero => intro heap a h; simp [popAllFuel] at h
  | succ n ih =>
    intro heap a h
    rw [popAllFuel] at h
    rcases hp : heappop lt heap with _ | ⟨x, rest⟩
    · rw [hp] at h; simp at h
    · rw [hp] at h
      have hperm := heappop_perm lt heap x rest hp
      rcases List.mem_cons.mp h with h1 | h1
      · exact h1 ▸ hperm.subset (List.mem_cons_self x _)
      · exact hperm.subset (List.mem_cons_of_mem x (ih rest a h1))

theorem popAllFuel_sorted {α : Type} {lt : α → α → Bool} (ho : LtOrder lt) :
    ∀ (n : Nat) (heap : List α), IsHeap lt heap →
      List.Pairwise (fun a b => lt b a = false) (popAllFuel lt n heap) := by
  intro n
  induction n with
  | zero => intro heap _; simp [popAllFuel]
  | succ n ih =>
    intro heap hh
    rw [popAllFuel]
    rcases hp : heappop lt heap with _ | ⟨x, rest⟩
    · simp
    · refine List.Pairwise.cons ?_ (ih rest (heappop_isHeap ho hh hp))
      intro b hb
      have hbheap : b ∈ heap :=
        (heappop_perm lt heap x rest hp).subset
          (List.mem_cons_of_mem x (popAllFuel_subset lt n rest b hb))
      obtain ⟨jb, hjb⟩ := List.mem_iff_get?.mp hbheap
      exact isHeap_root_min ho hh (heappop_root lt heap x rest hp) jb b hjb

theorem popAll_sorted {α : Type} {lt : α → α → Bool} (ho : LtOrder lt) {heap : List α}
    (hh : IsHeap lt heap) :
    List.Pairwise (fun a b => lt b a = false) (popAll lt heap) :=
  popAllFuel_sorted ho heap.length heap hh

theorem isHeap_nil {α : Type} (lt : α → α → Bool) : IsHeap lt ([] : List α) := by
  intro i j xi xj _ hgi _
  simp at hgi

theorem foldl_heappush_isHeap {α : Type} {lt : α → α → Bool} (ho : LtOrder lt) :
    ∀ (rs acc : List α), IsHeap lt acc →
      IsHeap lt (rs.foldl (fun h r => heappush lt h r) acc) := by
  intro rs
  induction rs with
  | nil => intro acc h; exact h
  | cons r rs ih => intro acc h; exact ih _ (heappush_isHeap ho h r)

theorem foldl_heappush_perm {α : Type} (lt : α → α → Bool) :
    ∀ (rs acc : List α),
      List.Perm (rs.foldl (fun h r => heappush lt h r) acc) (acc ++ rs) := by
  intro rs
  induction rs with
  | nil => intro acc; simp
  | cons r rs ih =>
    intro acc
    refine (ih (heappush lt acc r)).trans ?_
    refine (List.Perm.append_right rs (heappush_perm lt acc r)).trans ?_
    exact List.perm_middle.symm

/-!
## Part 4 — the ordering properties of `QueuedRequest.__lt__`
-/

theorem qlt_eq_true_iff (a b : QueuedRequest) :
    qlt a b = true ↔
      (a.priority.value < b.priority.value ∨
        (a.priority.value = b.priority.value ∧ a.queued_at < b.queued_at)) := by
  unfold qlt
  split
  next h =>
    simp only [decide_eq_true_eq]
    constructor
    · exact Or.inl
    · rintro (h' | ⟨h', _⟩)
      · exact h'
      · exact absurd h' h
  next h =>
    have he : a.priority.value = b.priority.value := by
      by_contra hc
      exact h hc
    simp only [decide_eq_true_eq]
    constructor
    · intro ht
      exact Or.inr ⟨he, ht⟩
    · rintro (h' | ⟨_, h'⟩)
      · omega
      · exact h'

/-- `QueuedRequest.__lt__` is a strict weak order: asymmetric, transitive,
with transitive complement (it is lexicographic on `(priority.value,
queued_at)`). -/
theorem qlt_order : LtOrder qlt := by
  constructor
  · intro a b hab
    rw [qlt_eq_true_iff] at hab
    cases hba : qlt b a with
    | false => rfl
    | true =>
      exfalso
      rw [qlt_eq_true_iff] at hba
      rcases hab with h1 | ⟨h1, h2⟩ <;> rcases hba with h3 | ⟨h3, h4⟩
      · omega
      · omega
      · omega
      · exact absurd h4 (by linarith)
  · intro a b c hab hbc
    rw [qlt_eq_true_iff] at hab hbc ⊢
    rcases hab with h1 | ⟨h1, h2⟩ <;> rcases hbc with h3 | ⟨h3, h4⟩
    · exact Or.inl (by omega)
    · exact Or.inl (by omega)
    · exact Or.inl (by omega)
    · exact Or.inr ⟨by omega, by linarith⟩
  · intro a b c hab hbc
    cases hac : qlt a c with
    | false => rfl
    | true =>
      exfalso
      rw [qlt_eq_true_iff] at hac
      have hab' : ¬ (a.priority.value < b.priority.value ∨
          (a.priority.value = b.priority.value ∧ a.queued_at < b.queued_at)) := by
        rw [← qlt_eq_true_iff, hab]
        simp
      have hbc' : ¬ (b.priority.value < c.priority.value ∨
          (b.priority.value = c.priority.value ∧ b.queued_at < c.queued_at)) := by
        rw [← qlt_eq_true_iff, hbc]
        simp
      push_neg at hab' hbc'
      rcases hac with h1 | ⟨h1, h2⟩
      · omega
      · have e1 : a.priority.value = b.priority.value := by omega
        have e2 : b.priority.value = c.priority.value := by omega
        have t1 : b.queued_at ≤ a.queued_at := hab'.2 e1
        have t2 : c.queued_at ≤ b.queued_at := hbc'.2 e2
        linarith

/-- The sort key of a request: `(priority.value, queued_at)`. -/
def reqKey (r : QueuedRequest) : Nat × ℚ := (r.priority.value, r.queued_at)

theorem qlt_total_of_key_ne {a b : QueuedRequest} (h : reqKey a ≠ reqKey b) :
    qlt a b = true ∨ qlt b a = true := by
  unfold reqKey at h
  by_cases hp : a.priority.value = b.priority.value
  · by_cases ht : a.queued_at = b.queued_at
    · exact absurd (by rw [hp, ht]) h
    · rcases lt_or_gt_of_ne ht with h' | h'
      · exact Or.inl ((qlt_eq_true_iff a b).mpr (Or.inr ⟨hp, h'⟩))
      · exact Or.inr ((qlt_eq_true_iff b a).mpr (Or.inr ⟨hp.symm, h'⟩))
  · rcases Nat.lt_or_ge a.priority.value b.priority.value with h' | h'
    · exact Or.inl ((qlt_eq_true_iff a b).mpr (Or.inl h'))
    · exact Or.inr ((qlt_eq_true_iff b a).mpr (Or.inl (by omega)))

/-!
## Part 5 — dispatch order: permutation, sortedness, and comparison with
the stable sort
-/

theorem dispatchOrder_perm (rs : List QueuedRequest) :
    List.Perm (dispatchOrder rs) rs := by
  unfold dispatchOrder
  refine (popAll_perm qlt _).trans ?_
  simpa using foldl_heappush_perm qlt rs []

theorem dispatchOrder_sorted (rs : List QueuedRequest) :
    List.Pairwise (fun a b => qlt b a = false) (dispatchOrder rs) :=
  popAll_sorted qlt_order (foldl_heappush_isHeap qlt_order rs [] (isHeap_nil qlt))

theorem eq_of_perm_sorted_distinct (l₁ l₂ : List QueuedRequest)
    (hperm : List.Perm l₁ l₂)
    (hkeys : l₁.Pairwise (fun a b => reqKey a ≠ reqKey b))
    (hs₁ : l₁.Pairwise (fun a b => qlt b a = false))
    (hs₂ : l₂.Pairwise (fun a b => qlt b a = false)) : l₁ = l₂ := by
  have hkeys₂ : l₂.Pairwise (fun a b => reqKey a ≠ reqKey b) :=
    (hperm.pairwise_iff (fun h => h ∘ Eq.symm)).mp hkeys
  have strict : ∀ (l : List QueuedRequest),
      l.Pairwise (fun a b => qlt b a = false) →
      l.Pairwise (fun a b => reqKey a ≠ reqKey b) →
      List.Sorted (fun a b => qlt a b = true) l := by
    intro l hs hk
    refine (hs.and hk).imp ?_
    intro a b ⟨h1, h2⟩
    rcases qlt_total_of_key_ne h2 with h' | h'
    · exact h'
    · exact absurd h' (by rw [h1]; simp)
  haveI : IsAntisymm QueuedRequest (fun a b => qlt a b = true) :=
    ⟨fun a b h1 h2 => absurd h2 (by rw [qlt_order.asymm a b h1]; simp)⟩
  exact List.eq_of_perm_of_sorted hperm (strict l₁ hs₁ hkeys) (strict l₂ hs₂ hkeys₂)

/-- C2 (amended): when the `(priority, enqueued_at)` keys of the submitted
batch are pairwise distinct, the dispatch start order equals the stable
sort by `(priority, enqueued_at)` ascending. -/
theorem dispatchOrder_eq_stableSort (rs : List QueuedRequest)
    (hkeys : rs.Pairwise (fun a b => reqKey a ≠ reqKey b)) :
    dispatchOrder rs = stableSortRequests rs := by
  have hperm : List.Perm (dispatchOrder rs) (stableSortRequests rs) :=
    (dispatchOrder_perm rs).trans (List.mergeSort_perm rs _).symm
  have hkeys₁ : (dispatchOrder rs).Pairwise (fun a b => reqKey a ≠ reqKey b) :=
    ((dispatchOrder_perm rs).pairwise_iff (fun h => h ∘ Eq.symm)).mpr hkeys
  have hs₂ : (stableSortRequests rs).Pairwise (fun a b => qlt b a = false) := by
    have htr : ∀ a b c : QueuedRequest,
        (!(qlt b a)) = true → (!(qlt c b)) = true → (!(qlt c a)) = true := by
      intro a b c h1 h2
      simp only [Bool.not_eq_true'] at h1 h2 ⊢
      exact qlt_order.negtrans c b a h2 h1
    have hto : ∀ a b : QueuedRequest, ((!(qlt b a)) || (!(qlt a b))) = true := by
      intro a b
      cases h : qlt b a with
      | false => simp
      | true => simp [qlt_order.asymm b a h]
    have := @List.sorted_mergeSort QueuedRequest (fun a b => !(qlt b a)) htr hto rs
    exact this.imp (by intro a b h; simpa using h)
  exact eq_of_perm_sorted_distinct _ _ hperm hkeys₁ (dispatchOrder_sorted rs) hs₂

/-!
## Part 6 — executable twins of the heap operations

`siftdown`/`siftupLoop` are defined by well-founded recursion (mirroring
the `while` loops of the source), which the kernel cannot evaluate; the
following structurally recursive twins are proved equal to them and are
used to evaluate concrete instances.
-/

def siftdownFuel {α : Type} (lt : α → α → Bool) :
    Nat → List α → Nat → Nat → α → List α
  | 0, heap, _, pos, newitem => heap.set pos newitem
  | fuel + 1, heap, startpos, pos, newitem =>
    if startpos < pos then
      let parentpos := (pos - 1) / 2
      let parent := heap.getD parentpos newitem
      if lt newitem parent then
        siftdownFuel lt fuel (heap.set pos parent) startpos parentpos newitem
      else
        heap.set pos newitem
    else
      heap.set pos newitem

theorem siftdownFuel_eq {α : Type} (lt : α → α → Bool) :
    ∀ (fuel pos : Nat) (heap : List α) (startpos : Nat) (x : α), pos ≤ fuel →
      siftdownFuel lt fuel heap startpos pos x = siftdown lt heap startpos pos x := by
  intro fuel
  induction fuel with
  | zero =>
    intro pos heap startpos x h
    have h0 : pos = 0 := by omega
    subst h0
    rw [siftdown, siftdownFuel]
    simp
  | succ fuel ih =>
    intro pos heap startpos x h
    rw [siftdown, siftdownFuel]
    split
    next hs =>
      dsimp only
      split
      next => exact ih _ _ _ _ (by omega)
      next => rfl
    next => rfl

def siftupLoopFuel {α : Type} (lt : α → α → Bool) :
    Nat → List α → Nat → Nat → α → List α
  | 0, heap, startpos, pos, newitem =>
    siftdownFuel lt pos (heap.set pos newitem) startpos pos newitem
  | fuel + 1, heap, startpos, pos, newitem =>
    let endpos := heap.length
    let childpos := 2 * pos + 1
    if childpos < endpos then
      let rightpos := childpos + 1
      let c :=
        if rightpos < endpos then
          if lt (heap.getD childpos newitem) (heap.getD rightpos newitem) then childpos
          else rightpos
        else childpos
      siftupLoopFuel lt fuel (heap.set pos (heap.getD c newitem)) startpos c newitem
    else
      siftdownFuel lt pos (heap.set pos newitem) startpos pos newitem

theorem siftupLoopFuel_eq {α : Type} (lt : α → α → Bool) :
    ∀ (fuel : Nat) (heap : List α) (pos startpos : Nat) (x : α),
      heap.length - pos ≤ fuel →
      siftupLoopFuel lt fuel heap startpos pos x = siftupLoop lt heap startpos pos x := by
  intro fuel
  induction fuel with
  | zero =>
    intro heap pos startpos x h
    rw [siftupLoop, siftupLoopFuel]
    split
    next hs => omega
    next hs => exact siftdownFuel_eq lt pos pos _ startpos x (Nat.le_refl _)
  | succ fuel ih =>
    intro heap pos startpos x h
    rw [siftupLoop, siftupLoopFuel]
    split
    next hs =>
      dsimp only
      split
      next hr =>
        split
        next => exact ih _ _ _ x (by simp; omega)
        next => exact ih _ _ _ x (by simp; omega)
      next hr => exact ih _ _ _ x (by simp; omega)
    next hs => exact siftdownFuel_eq lt pos pos _ startpos x (Nat.le_refl _)

def heappushE {α : Type} (lt : α → α → Bool) (heap : List α) (item : α) : List α :=
  siftdownFuel lt heap.length (heap ++ [item]) 0 heap.length item

theorem heappushE_eq {α : Type} (lt : α → α → Bool) (heap : List α) (item : α) :
    heappushE lt heap item = heappush lt heap item :=
  siftdownFuel_eq lt heap.length heap.length _ 0 item (Nat.le_refl _)

def heappopE {α : Type} (lt : α → α → Bool) (heap : List α) : Option (α × List α) :=
  match heap.getLast? with
  | none => none
  | some lastelt =>
    match heap.dropLast with
    | [] => some (lastelt, [])
    | x :: xs =>
      some (x, siftupLoopFuel lt (x :: xs).length ((x :: xs).set 0 lastelt) 0 0 lastelt)

theorem heappopE_eq {α : Type} (lt : α → α → Bool) (heap : List α) :
    heappopE lt heap = heappop lt heap := by
  unfold heappopE heappop
  cases heap.getLast? with
  | none => rfl
  | some lastelt =>
    cases heap.dropLast with
    | nil => rfl
    | cons x xs =>
      dsimp only
      rw [siftupLoopFuel_eq lt (x :: xs).length _ 0 0 lastelt (by simp)]

def popAllE {α : Type} (lt : α → α → Bool) : Nat → List α → List α
  | 0, _ => []
  | fuel + 1, heap =>
    match heappopE lt heap with
    | none => []
    | some (x, rest) => x :: popAllE lt fuel rest

theorem popAllE_eq {α : Type} (lt : α → α → Bool) :
    ∀ (n : Nat) (heap : List α), popAllE lt n heap = popAllFuel lt n heap := by
  intro n
  induction n with
  | zero => intro heap; rfl
  | succ n ih =>
    intro heap
    rw [popAllE, popAllFuel, heappopE_eq]
    cases heappop lt heap with
    | none => rfl
    | some p =>
      obtain ⟨x, rest⟩ := p
      dsimp only
      rw [ih]

def dispatchOrderE (rs : List QueuedRequest) : List QueuedRequest :=
  popAllE qlt (rs.foldl (fun h r => heappushE qlt h r) []).length
    (rs.foldl (fun h r => heappushE qlt h r) [])

theorem dispatchOrderE_eq (rs : List QueuedRequest) :
    dispatchOrderE rs = dispatchOrder rs := by
  have hfold : ∀ acc : List QueuedRequest,
      rs.foldl (fun h r => heappushE qlt h r) acc =
        rs.foldl (fun h r => heappush qlt h r) acc := by
    induction rs with
    | nil => intro acc; rfl
    | cons r rs ih => intro acc; rw [List.foldl, List.foldl, heappushE_eq, ih]
  unfold dispatchOrderE dispatchOrder popAll
  rw [hfold, popAllE_eq]

/-!
## Part 7 — Claim C2
-/

/-- A request with priority `NORMAL` and `queued_at = 0`, used to exhibit a
batch whose `(priority, enqueued_at)` keys all tie. -/
def tieRequest (i : String) : QueuedRequest := ⟨i, .NORMAL, 0⟩

/-- Claim C2, counterexample: four requests submitted in order
r1, r2, r3, r4, all with priority `NORMAL` and the same `queued_at`, are
started by the dispatch loop in order r1, r3, r2, r4 (the heapq pop order),
while the stable sort by `(priority, enqueued_at)` keeps them in submission
order r1, r2, r3, r4.  Hence dispatch start order is not the stable sort:
equal-key ties are not served FIFO. -/
theorem dispatch_ties_counterexample :
    dispatchOrder [tieRequest "r1", tieRequest "r2", tieRequest "r3", tieRequest "r4"] ≠
      stableSortRequests [tieRequest "r1", tieRequest "r2", tieRequest "r3", tieRequest "r4"] := by
  have h1 : dispatchOrder [tieRequest "r1", tieRequest "r2", tieRequest "r3", tieRequest "r4"] =
      [tieRequest "r1", tieRequest "r3", tieRequest "r2", tieRequest "r4"] := by
    rw [← dispatchOrderE_eq]
    decide
  have h2 : stableSortRequests [tieRequest "r1", tieRequest "r2", tieRequest "r3", tieRequest "r4"] =
      [tieRequest "r1", tieRequest "r2", tieRequest "r3", tieRequest "r4"] :=
    List.mergeSort_of_sorted (by decide)
  rw [h1, h2]
  decide

/-- Claim C2, witness for the amended claim: a concrete batch of four
concurrently submitted requests with pairwise distinct
`(priority, enqueued_at)` keys is dispatched exactly in the stable sort
order by `(priority, enqueued_at)`. -/
theorem dispatchOrder_eq_stableSort_witness :
    ([⟨"a", .LOW, 1⟩, ⟨"b", .HIGH, 2⟩, ⟨"c", .NORMAL, 3⟩, ⟨"d", .HIGH, 4⟩] :
      List QueuedRequest).Pairwise (fun a b => reqKey a ≠ reqKey b) ∧
    dispatchOrder [⟨"a", .LOW, 1⟩, ⟨"b", .HIGH, 2⟩, ⟨"c", .NORMAL, 3⟩, ⟨"d", .HIGH, 4⟩] =
      stableSortRequests [⟨"a", .LOW, 1⟩, ⟨"b", .HIGH, 2⟩, ⟨"c", .NORMAL, 3⟩, ⟨"d", .HIGH, 4⟩] :=
  ⟨by decide, dispatchOrder_eq_stableSort _ (by decide)⟩

/-!
## Part 8 — the `RequestQueueManager` concurrency model (claims C1, C10)

The manager's concurrent behaviour is embedded as a transition system whose
steps are the await-free atomic segments of the asyncio coroutines in
`request_queue.py`:

* `enqueue` — `enqueue_request` passes the `queue.full()` check and
  `queue.put` succeeds (lines 147–172); only enabled while the buffer holds
  fewer than `max_queue_size` requests;
* `popSpawn` — the worker loop `_process_queue` (lines 203–218) pops one
  request from the queue and immediately `asyncio.create_task`s its
  `_execute_request`, **without** waiting for an execution slot;
* `acquire` — a spawned `_execute_request` passes
  `async with self.semaphore` (line 234), which requires a free slot;
* `beginExec` — the resumed executor runs `self.active_requests += 1`
  (line 235) and starts awaiting the task;
* `finishExec` — the task finishes; the `finally:` block runs
  `self.active_requests -= 1` (line 285) and leaving the `async with`
  releases the semaphore, in one await-free segment.

`semAvail` is the internal counter of `asyncio.Semaphore(max_concurrent)`;
`active_requests` is the Python integer of the same name (kept as `ℤ`, so
non-negativity is proved, not assumed). -/
structure QueueSys where
  max_concurrent : Nat
  max_queue_size : Nat
deriving DecidableEq

structure QState where
  buffer : Nat
  spawned : Nat
  acquired : Nat
  running : Nat
  semAvail : Nat
  active_requests : Int
deriving DecidableEq

/-- `RequestQueueManager.__init__`: empty queue, no executors, semaphore at
`max_concurrent`, `active_requests = 0`. -/
def QState.init (sys : QueueSys) : QState := ⟨0, 0, 0, 0, sys.max_concurrent, 0⟩

inductive QStep (sys : QueueSys) : QState → QState → Prop where
  | enqueue (s : QState) : sys.max_queue_size = 0 ∨ s.buffer < sys.max_queue_size →
      QStep sys s ⟨s.buffer + 1, s.spawned, s.acquired, s.running, s.semAvail, s.active_requests⟩
  | popSpawn (s : QState) : 0 < s.buffer →
      QStep sys s ⟨s.buffer - 1, s.spawned + 1, s.acquired, s.running, s.semAvail, s.active_requests⟩
  | acquire (s : QState) : 0 < s.spawned → 0 < s.semAvail →
      QStep sys s ⟨s.buffer, s.spawned - 1, s.acquired + 1, s.running, s.semAvail - 1, s.active_requests⟩
  | beginExec (s : QState) : 0 < s.acquired →
      QStep sys s ⟨s.buffer, s.spawned, s.acquired - 1, s.running + 1, s.semAvail, s.active_requests + 1⟩
  | finishExec (s : QState) : 0 < s.running →
      QStep sys s ⟨s.buffer, s.spawned, s.acquired, s.running - 1, s.semAvail + 1, s.active_requests - 1⟩

def QReachable (sys : QueueSys) (s : QState) : Prop :=
  Relation.ReflTransGen (QStep sys) (QState.init sys) s

/-- The inductive invariant: `active_requests` counts exactly the executors
between their increment and their decrement, and semaphore accounting is
exact. -/
def QInv (sys : QueueSys) (s : QState) : Prop :=
  s.active_requests = s.running ∧ s.semAvail + s.acquired + s.running = sys.max_concurrent

theorem qinv_of_reachable (sys : QueueSys) (s : QState) (h : QReachable sys s) :
    QInv sys s := by
  induction h with
  | refl => exact ⟨rfl, by simp [QState.init]⟩
  | tail _ hstep ih =>
    obtain ⟨ih1, ih2⟩ := ih
    cases hstep with
    | enqueue hg => exact ⟨ih1, ih2⟩
    | popSpawn hg => exact ⟨ih1, ih2⟩
    | acquire hg1 hg2 => refine ⟨ih1, ?_⟩; simp only; omega
    | beginExec hg => refine ⟨?_, ?_⟩ <;> simp only <;> omega
    | finishExec hg => refine ⟨?_, ?_⟩ <;> simp only <;> omega

/-- Claim C1: in every reachable state of the queue system,
`0 ≤ active_requests ≤ max_concurrent`: the number of simultaneously
executing tasks never exceeds the concurrency limit and is never
negative. -/
theorem active_requests_bounded (sys : QueueSys) (s : QState) (h : QReachable sys s) :
    0 ≤ s.active_requests ∧ s.active_requests ≤ (sys.max_concurrent : Int) := by
  obtain ⟨h1, h2⟩ := qinv_of_reachable sys s h
  omega

/-- Claim C1, witness: with `max_concurrent = 2`, `max_queue_size = 100`
(the values of the global manager), the state reached by
enqueue–pop–acquire–increment has one task executing, and the bound
`0 ≤ 1 ≤ 2` holds there. -/
theorem active_requests_bounded_witness :
    QReachable ⟨2, 100⟩ ⟨0, 0, 0, 1, 1, 1⟩ ∧
      (0 ≤ (⟨0, 0, 0, 1, 1, 1⟩ : QState).active_requests ∧
        (⟨0, 0, 0, 1, 1, 1⟩ : QState).active_requests ≤ ((2 : Nat) : Int)) := by
  have h1 : QStep ⟨2, 100⟩ (QState.init ⟨2, 100⟩) ⟨1, 0, 0, 0, 2, 0⟩ :=
    QStep.enqueue _ (by decide)
  have h2 : QStep ⟨2, 100⟩ ⟨1, 0, 0, 0, 2, 0⟩ ⟨0, 1, 0, 0, 2, 0⟩ :=
    QStep.popSpawn _ (by decide)
  have h3 : QStep ⟨2, 100⟩ ⟨0, 1, 0, 0, 2, 0⟩ ⟨0, 0, 1, 0, 1, 0⟩ :=
    QStep.acquire _ (by decide) (by decide)
  have h4 : QStep ⟨2, 100⟩ ⟨0, 0, 1, 0, 1, 0⟩ ⟨0, 0, 0, 1, 1, 1⟩ :=
    QStep.beginExec _ (by decide)
  have hreach : QReachable ⟨2, 100⟩ ⟨0, 0, 0, 1, 1, 1⟩ :=
    (((Relation.ReflTransGen.refl.tail h1).tail h2).tail h3).tail h4
  exact ⟨hreach, active_requests_bounded _ _ hreach⟩

/-- `get_estimated_wait_time` (`request_queue.py` lines 287–310): `0` when
the buffer is empty, otherwise `queue_size / max_concurrent` times the
average of the recent execution times (default estimate `5000` ms with no
history). -/
def get_estimated_wait_time (max_concurrent : Nat) (recent_execution_times : List ℚ)
    (queue_size : Nat) : ℚ :=
  if queue_size = 0 then 0
  else
    let avg_execution_time :=
      if recent_execution_times.isEmpty then 5000
      else recent_execution_times.sum / (recent_execution_times.length : ℚ)
    ((queue_size : ℚ) / (max_concurrent : ℚ)) * avg_execution_time

/-- Requests the loop has popped (admitted) whose execution has not yet
finished: spawned-but-waiting, slot-holding, and executing. -/
def QState.admittedPending (s : QState) : Nat := s.spawned + s.acquired + s.running

/-- Claim C10: with `max_concurrent = 1` and `max_queue_size = 1` the
system reaches a state (enqueue, pop, acquire, increment, enqueue, pop)
in which the loop has admitted 2 requests that are still pending —
exceeding `capacity = 1` — while the buffer is empty again, so a further
enqueue would pass the `queue.full()` check and
`get_estimated_wait_time` returns 0 despite the pending work. -/
theorem admitted_pending_exceeds_capacity :
    QReachable ⟨1, 1⟩ ⟨0, 1, 0, 1, 0, 1⟩ ∧
    (⟨0, 1, 0, 1, 0, 1⟩ : QState).admittedPending = 2 ∧
    (⟨1, 1⟩ : QueueSys).max_queue_size < 2 ∧
    (⟨0, 1, 0, 1, 0, 1⟩ : QState).buffer < (⟨1, 1⟩ : QueueSys).max_queue_size ∧
    (∀ recent : List ℚ,
      get_estimated_wait_time 1 recent (⟨0, 1, 0, 1, 0, 1⟩ : QState).buffer = 0) := by
  have h1 : QStep ⟨1, 1⟩ (QState.init ⟨1, 1⟩) ⟨1, 0, 0, 0, 1, 0⟩ :=
    QStep.enqueue _ (by decide)
  have h2 : QStep ⟨1, 1⟩ ⟨1, 0, 0, 0, 1, 0⟩ ⟨0, 1, 0, 0, 1, 0⟩ :=
    QStep.popSpawn _ (by decide)
  have h3 : QStep ⟨1, 1⟩ ⟨0, 1, 0, 0, 1, 0⟩ ⟨0, 0, 1, 0, 0, 0⟩ :=
    QStep.acquire _ (by decide) (by decide)
  have h4 : QStep ⟨1, 1⟩ ⟨0, 0, 1, 0, 0, 0⟩ ⟨0, 0, 0, 1, 0, 1⟩ :=
    QStep.beginExec _ (by decide)
  have h5 : QStep ⟨1, 1⟩ ⟨0, 0, 0, 1, 0, 1⟩ ⟨1, 0, 0, 1, 0, 1⟩ :=
    QStep.enqueue _ (by decide)
  have h6 : QStep ⟨1, 1⟩ ⟨1, 0, 0, 1, 0, 1⟩ ⟨0, 1, 0, 1, 0, 1⟩ :=
    QStep.popSpawn _ (by decide)
  refine ⟨(((((Relation.ReflTransGen.refl.tail h1).tail h2).tail h3).tail h4).tail h5).tail h6,
    rfl, by decide, by decide, ?_⟩
  intro recent
  simp [get_estimated_wait_time]

/-!
## Part 9 — completion-handle (future) lifecycle of one request (claim C3)

Per-request model of `enqueue_request`'s `asyncio.wait_for(future, ...)`
(lines 185–196) together with its `_execute_request` executor
(lines 244–285).

* `callerTimeout` — `asyncio.wait_for` reaches its deadline while the
  future is unresolved; `wait_for` then *cancels* the future, after which
  `future.done()` is true.  (If the future is already resolved, `wait_for`
  has returned and no cancellation occurs.)
* `taskCompleteValue` / `taskCompleteError` — the awaited task returns or
  raises; the executor runs `if not future.done(): future.set_result(...)`
  (resp. `set_exception`), updates the counters, and in the same await-free
  segment runs the `finally:` decrement and releases the semaphore slot
  (modelled by `slotReleased`).  `writes` counts successful
  `set_result`/`set_exception` calls. -/
inductive FutureState where
  | pending
  | cancelled
  | resolvedValue
  | resolvedError
deriving DecidableEq

structure ExecState where
  fut : FutureState
  writes : Nat
  taskDone : Bool
  slotReleased : Bool
deriving DecidableEq

def ExecState.init : ExecState := ⟨.pending, 0, false, false⟩

inductive ExecStep : ExecState → ExecState → Prop where
  | callerTimeout (s : ExecState) : s.fut = .pending →
      ExecStep s ⟨.cancelled, s.writes, s.taskDone, s.slotReleased⟩
  | taskCompleteValue (s : ExecState) : s.taskDone = false →
      ExecStep s ⟨if s.fut = .pending then .resolvedValue else s.fut,
        if s.fut = .pending then s.writes + 1 else s.writes, true, true⟩
  | taskCompleteError (s : ExecState) : s.taskDone = false →
      ExecStep s ⟨if s.fut = .pending then .resolvedError else s.fut,
        if s.fut = .pending then s.writes + 1 else s.writes, true, true⟩

def ExecReachable (s : ExecState) : Prop :=
  Relation.ReflTransGen ExecStep ExecState.init s

/-- The inductive invariant of the request lifecycle. -/
def ExecInv (s : ExecState) : Prop :=
  ((s.fut = .pending ∨ s.fut = .cancelled) → s.writes = 0) ∧
  ((s.fut = .resolvedValue ∨ s.fut = .resolvedError) → s.writes = 1) ∧
  (s.taskDone = true → s.slotReleased = true)

theorem execInv_of_reachable (s : ExecState) (h : ExecReachable s) : ExecInv s := by
  induction h with
  | refl =>
    refine ⟨fun _ => rfl, fun hr => ?_, fun hd => ?_⟩
    · simp [ExecState.init] at hr
    · simp [ExecState.init] at hd
  | tail hsteps hstep ih =>
    rename_i b c
    obtain ⟨ih1, ih2, ih3⟩ := ih
    cases hstep with
    | callerTimeout hp =>
      exact ⟨fun _ => ih1 (Or.inl hp), fun hr => by simp at hr, ih3⟩
    | taskCompleteValue hd =>
      by_cases hp : b.fut = FutureState.pending
      · exact ⟨(by simp [ExecInv, hp]), (by simp [ExecInv, hp, ih1 (Or.inl hp)]), fun _ => rfl⟩
      · refine ⟨fun hc => ?_, fun hr => ?_, fun _ => rfl⟩
        · simp only [if_neg hp] at hc ⊢
          exact ih1 hc
        · simp only [if_neg hp] at hr ⊢
          exact ih2 hr
    | taskCompleteError hd =>
      by_cases hp : b.fut = FutureState.pending
      · exact ⟨(by simp [ExecInv, hp]), (by simp [ExecInv, hp, ih1 (Or.inl hp)]), fun _ => rfl⟩
      · refine ⟨fun hc => ?_, fun hr => ?_, fun _ => rfl⟩
        · simp only [if_neg hp] at hc ⊢
          exact ih1 hc
        · simp only [if_neg hp] at hr ⊢
          exact ih2 hr

/-- Claim C3: in every reachable state of a request's lifecycle, its future
has been written at most once (so at most one of value/error is ever
delivered); if the caller has timed out (future cancelled) the future holds
no result, and any task completion from such a state writes nothing while
still releasing the concurrency slot; and whenever the task has finished,
its slot has been released. -/
theorem future_written_at_most_once (s : ExecState) (h : ExecReachable s) :
    s.writes ≤ 1 ∧
    (s.fut = .cancelled → s.writes = 0 ∧
      ∀ s', ExecStep s s' → s'.fut = .cancelled ∧ s'.writes = 0 ∧
        (s'.taskDone = true → s'.slotReleased = true)) ∧
    (s.taskDone = true → s.slotReleased = true) := by
  obtain ⟨i1, i2, i3⟩ := execInv_of_reachable s h
  refine ⟨?_, fun hc => ⟨i1 (Or.inr hc), ?_⟩, i3⟩
  · rcases hf : s.fut with _ | _ | _ | _
    · rw [i1 (Or.inl hf)]; omega
    · rw [i1 (Or.inr hf)]; omega
    · rw [i2 (Or.inl hf)]
    · rw [i2 (Or.inr hf)]
  · intro s' hstep
    cases hstep with
    | callerTimeout hp => rw [hp] at hc; cases hc
    | taskCompleteValue hd =>
      rw [hc]
      refine ⟨by simp, by simpa using i1 (Or.inr hc), fun _ => rfl⟩
    | taskCompleteError hd =>
      rw [hc]
      refine ⟨by simp, by simpa using i1 (Or.inr hc), fun _ => rfl⟩

/-- Claim C3, witness: the state in which the caller timed out first and
the task completed afterwards is reachable; there the future was never
written (the late result is discarded) and the slot was released. -/
theorem future_written_at_most_once_witness :
    ExecReachable ⟨.cancelled, 0, true, true⟩ ∧
      ((⟨.cancelled, 0, true, true⟩ : ExecState).writes ≤ 1 ∧
        ((⟨.cancelled, 0, true, true⟩ : ExecState).fut = .cancelled →
          (⟨.cancelled, 0, true, true⟩ : ExecState).writes = 0 ∧
          ∀ s', ExecStep ⟨.cancelled, 0, true, true⟩ s' →
            s'.fut = .cancelled ∧ s'.writes = 0 ∧
            (s'.taskDone = true → s'.slotReleased = true)) ∧
        ((⟨.cancelled, 0, true, true⟩ : ExecState).taskDone = true →
          (⟨.cancelled, 0, true, true⟩ : ExecState).slotReleased = true)) := by
  have h1 : ExecStep ExecState.init ⟨.cancelled, 0, false, false⟩ :=
    ExecStep.callerTimeout _ rfl
  have h2 : ExecStep ⟨.cancelled, 0, false, false⟩ ⟨.cancelled, 0, true, true⟩ := by
    have := ExecStep.taskCompleteValue (⟨.cancelled, 0, false, false⟩ : ExecState) rfl
    simpa using this
  have hreach : ExecReachable ⟨.cancelled, 0, true, true⟩ :=
    (Relation.ReflTransGen.refl.tail h1).tail h2
  exact ⟨hreach, future_written_at_most_once _ hreach⟩

/-!
## Part 10 — capacity admission of `enqueue_request` (claim C4)

The admission prefix of `enqueue_request` (`request_queue.py` lines
144–172), run once per submission.  In asyncio there is no await point
between the `queue.full()` check and (on the non-full path) `queue.put`
returning, so successive submissions with no dispatch in between execute
this prefix back to back.  `asyncio.Queue.full()` is
`0 < maxsize ∧ qsize ≥ maxsize` (a queue created with `maxsize ≤ 0` is
unbounded and never full).  On a full queue the call raises
`asyncio.QueueFull` at once, without creating a future or suspending;
otherwise the request is buffered. -/
structure EnqState where
  buffered : Nat
  total_requests : Nat
  rejected_requests : Nat
deriving DecidableEq

/-- One admission attempt: returns `true` for a successful enqueue and
`false` for an `asyncio.QueueFull` rejection, with the updated state. -/
def enqueue_admission (max_queue_size : Nat) (s : EnqState) : Bool × EnqState :=
  let s₁ : EnqState := ⟨s.buffered, s.total_requests + 1, s.rejected_requests⟩
  if 0 < max_queue_size ∧ s₁.buffered ≥ max_queue_size then
    (false, ⟨s₁.buffered, s₁.total_requests, s₁.rejected_requests + 1⟩)
  else
    (true, ⟨s₁.buffered + 1, s₁.total_requests, s₁.rejected_requests⟩)

/-- Run `n` admission attempts; returns (number of successful enqueues,
number of `QueueFull` rejections, final state). -/
def runEnqueues (max_queue_size : Nat) : Nat → EnqState → Nat × Nat × EnqState
  | 0, s => (0, 0, s)
  | n + 1, s =>
    let r := enqueue_admission max_queue_size s
    let rest := runEnqueues max_queue_size n r.2
    (rest.1 + (if r.1 then 1 else 0), rest.2.1 + (if r.1 then 0 else 1), rest.2.2)

theorem runEnqueues_fill_then_reject (cap : Nat) (hcap : 0 < cap) :
    ∀ (n t r : Nat), n ≤ cap →
      runEnqueues cap (n + 1) ⟨cap - n, t, r⟩ =
        (n, 1, ⟨cap, t + n + 1, r + 1⟩) := by
  intro n
  induction n with
  | zero =>
    intro t r _
    simp [runEnqueues, enqueue_admission, hcap]
  | succ n ih =>
    intro t r hn
    have hlt : cap - (n + 1) < cap := by omega
    have hstep : enqueue_admission cap ⟨cap - (n + 1), t, r⟩ =
        (true, ⟨cap - n, t + 1, r⟩) := by
      simp only [enqueue_admission]
      rw [if_neg (by omega)]
      refine congrArg _ ?_
      congr 1
      omega
    rw [runEnqueues, hstep]
    dsimp only
    rw [ih (t + 1) r (by omega)]
    simp only [if_true, Prod.mk.injEq, EnqState.mk.injEq, true_and, and_true]
    omega

/-- Claim C4: starting from an empty queue with capacity
`max_queue_size = cap`, submitting `cap + 1` requests before any is
dispatched yields exactly `cap` successful enqueues and exactly one
`QueueFull` rejection (raised immediately, with no future created and no
suspension), and the `rejected_requests` counter is incremented by exactly
one (while `total_requests` counts all `cap + 1` submissions).  The
capacity is positive, as in every configuration of this queue (the global
manager uses 100); `asyncio` treats `maxsize ≤ 0` as unbounded. -/
theorem capacity_rejection (cap : Nat) (hcap : 0 < cap) :
    runEnqueues cap (cap + 1) ⟨0, 0, 0⟩ = (cap, 1, ⟨cap, cap + 1, 1⟩) := by
  have := runEnqueues_fill_then_reject cap hcap cap 0 0 (Nat.le_refl _)
  simpa using this

/-- Claim C4, witness: with the global manager's `max_queue_size = 100`,
submitting 101 requests yields 100 successes, one `QueueFull`, and
`rejected_requests = 1`. -/
theorem capacity_rejection_witness :
    0 < 100 ∧
      runEnqueues 100 (100 + 1) ⟨0, 0, 0⟩ = (100, 1, ⟨100, 100 + 1, 1⟩) :=
  ⟨by decide, capacity_rejection 100 (by decide)⟩

/-!
## Part 11 — behaviour of buffered requests after `stop()` (claim C5)

`stop()` (`request_queue.py` lines 104–113) sets `_running = False` and
cancels the worker task.  The worker's `await self.queue.get()` then raises
`asyncio.CancelledError`, which matches neither `except asyncio.TimeoutError`
nor `except Exception` (on Python ≥ 3.8 `CancelledError` derives from
`BaseException`), so the worker task dies.  A request still buffered at
that moment has no executor task — `_execute_request` is only created for
popped requests — and no other code path ever touches its future.  Hence,
absent a later `start()`, the only event that can still affect its waiting
caller is the caller's own `asyncio.wait_for` deadline, which cancels the
future and raises `asyncio.TimeoutError` (not a shutdown error).  The
post-`stop` system for one buffered request is therefore: -/
structure StoppedState where
  buffered : List String
  futureCompleted : Bool
  callerTimedOut : Bool
deriving DecidableEq

/-- The state right after `stop()` returns with request "r1" still
buffered: the worker is cancelled, r1's future is untouched, the caller is
still waiting. -/
def stoppedInit : StoppedState := ⟨["r1"], false, false⟩

inductive StoppedStep : StoppedState → StoppedState → Prop where
  | waitForTimeout (s : StoppedState) : s.futureCompleted = false →
      s.callerTimedOut = false →
      StoppedStep s ⟨s.buffered, s.futureCompleted, true⟩

/-- Claim C5 (showing the claim fails on the code): in every state
reachable after `stop()`, the buffered request's future has never been
completed — in particular no shutdown error is ever delivered to the
waiting caller, who stays suspended until its own `wait_for` timeout —
and the request stays in the buffer. -/
theorem stop_abandons_pending_requests (s : StoppedState)
    (h : Relation.ReflTransGen StoppedStep stoppedInit s) :
    s.futureCompleted = false ∧ s.buffered = ["r1"] := by
  induction h with
  | refl => exact ⟨rfl, rfl⟩
  | tail hsteps hstep ih =>
    cases hstep with
    | waitForTimeout h1 h2 => exact ⟨ih.1, ih.2⟩

/-- Claim C5, witness: both the immediate post-`stop` state and the state
after the caller's timeout fires are reachable, and in the latter the
future is still uncompleted (the caller saw `TimeoutError`, not a shutdown
error). -/
theorem stop_abandons_pending_requests_witness :
    Relation.ReflTransGen StoppedStep stoppedInit ⟨["r1"], false, true⟩ ∧
      ((⟨["r1"], false, true⟩ : StoppedState).futureCompleted = false ∧
        (⟨["r1"], false, true⟩ : StoppedState).buffered = ["r1"]) := by
  have h1 : StoppedStep stoppedInit ⟨["r1"], false, true⟩ :=
    StoppedStep.waitForTimeout _ rfl rfl
  have hreach : Relation.ReflTransGen StoppedStep stoppedInit ⟨["r1"], false, true⟩ :=
    Relation.ReflTransGen.refl.tail h1
  exact ⟨hreach, stop_abandons_pending_requests _ hreach⟩

/-!
## Part 12 — `datetime.isoformat` / `datetime.fromisoformat`

`data_models.py` serializes `datetime` fields with `isoformat()` and parses
them back with `datetime.fromisoformat()`.  These are Python standard
library functions (external collaborators); they are embedded concretely:
a datetime is its field tuple, `isoformat` renders the fixed-width
`YYYY-MM-DDTHH:MM:SS[.ffffff]` form (the microsecond part appears exactly
when `microsecond ≠ 0`, as in CPython), and `fromisoformat` parses that
fixed-position layout. -/
structure PyDateTime where
  year : Nat
  month : Nat
  day : Nat
  hour : Nat
  minute : Nat
  second : Nat
  microsecond : Nat
deriving DecidableEq

/-- The field bounds CPython's `datetime` guarantees (weakened to what the
round-trip needs: each field fits its fixed width). -/
def PyDateTime.Wf (d : PyDateTime) : Prop :=
  d.year < 10 ^ 4 ∧ d.month < 10 ^ 2 ∧ d.day < 10 ^ 2 ∧ d.hour < 10 ^ 2 ∧
    d.minute < 10 ^ 2 ∧ d.second < 10 ^ 2 ∧ d.microsecond < 10 ^ 6

instance (d : PyDateTime) : Decidable d.Wf := by
  unfold PyDateTime.Wf
  infer_instance

def digitChar (d : Nat) : Char := Char.ofNat (48 + d)

def isDigitChar (c : Char) : Bool := decide (48 ≤ c.toNat) && decide (c.toNat ≤ 57)

/-- Fixed-width decimal rendering: exactly `k` digits, leading zeros. -/
def padNum : Nat → Nat → List Char
  | 0, _ => []
  | k + 1, n => padNum k (n / 10) ++ [digitChar (n % 10)]

def decodeDigits (cs : List Char) : Nat :=
  cs.foldl (fun acc c => acc * 10 + (c.toNat - 48)) 0

theorem digitChar_toNat : ∀ d : Nat, d < 10 → (digitChar d).toNat = 48 + d := by decide

theorem digitChar_isDigit : ∀ d : Nat, d < 10 → isDigitChar (digitChar d) = true := by decide

theorem padNum_length : ∀ (k n : Nat), (padNum k n).length = k := by
  intro k
  induction k with
  | zero => intro n; rfl
  | succ k ih => intro n; simp [padNum, ih]

theorem padNum_all_digits : ∀ (k n : Nat), (padNum k n).all isDigitChar = true := by
  intro k
  induction k with
  | zero => intro n; rfl
  | succ k ih =>
    intro n
    simp only [padNum, List.all_append, ih, Bool.true_and, List.all_cons, List.all_nil,
      Bool.and_true]
    exact digitChar_isDigit _ (Nat.mod_lt _ (by omega))

theorem decodeDigits_aux : ∀ (k n acc : Nat), n < 10 ^ k →
    (padNum k n).foldl (fun acc c => acc * 10 + (c.toNat - 48)) acc = acc * 10 ^ k + n := by
  intro k
  induction k with
  | zero =>
    intro n acc h
    simp only [pow_zero] at h
    interval_cases n
    simp [padNum]
  | succ k ih =>
    intro n acc h
    rw [padNum, List.foldl_append]
    rw [ih (n / 10) acc (by
      rw [Nat.div_lt_iff_lt_mul (by omega)]
      calc n < 10 ^ (k + 1) := h
        _ = 10 ^ k * 10 := by ring)]
    simp only [List.foldl_cons, List.foldl_nil]
    rw [digitChar_toNat _ (Nat.mod_lt _ (by omega))]
    have : 48 + n % 10 - 48 = n % 10 := by omega
    rw [this]
    rw [pow_succ]
    have hdm := Nat.div_add_mod n 10
    ring_nf
    omega

theorem decodeDigits_padNum (k n : Nat) (h : n < 10 ^ k) :
    decodeDigits (padNum k n) = n := by
  unfold decodeDigits
  rw [decodeDigits_aux k n 0 h]
  simp

/-- Fixed-width field parser: `k` digit characters, then the rest. -/
def parseFixed (k : Nat) (cs : List Char) : Option (Nat × List Char) :=
  if (cs.take k).length = k ∧ (cs.take k).all isDigitChar then
    some (decodeDigits (cs.take k), cs.drop k)
  else
    none

theorem parseFixed_pad (k n : Nat) (rest : List Char) (h : n < 10 ^ k) :
    parseFixed k (padNum k n ++ rest) = some (n, rest) := by
  unfold parseFixed
  have htake : (padNum k n ++ rest).take k = padNum k n :=
    List.take_left' (padNum_length k n)
  have hdrop : (padNum k n ++ rest).drop k = rest :=
    List.drop_left' (padNum_length k n)
  rw [htake, hdrop, if_pos ⟨padNum_length k n, padNum_all_digits k n⟩,
    decodeDigits_padNum k n h]

def expectChar (c : Char) : List Char → Option (List Char)
  | [] => none
  | x :: xs => if x = c then some xs else none

/-- `datetime.isoformat()`: `YYYY-MM-DDTHH:MM:SS`, with `.ffffff` appended
exactly when `microsecond ≠ 0` (CPython behaviour). -/
def isoformatChars (d : PyDateTime) : List Char :=
  padNum 4 d.year ++ '-' ::
    (padNum 2 d.month ++ '-' ::
      (padNum 2 d.day ++ 'T' ::
        (padNum 2 d.hour ++ ':' ::
          (padNum 2 d.minute ++ ':' ::
            (padNum 2 d.second ++
              (if d.microsecond = 0 then [] else '.' :: padNum 6 d.microsecond))))))

/-- `datetime.fromisoformat` on the fixed-position layout produced by
`isoformat`. -/
def fromisoChars (cs : List Char) : Option PyDateTime :=
  (parseFixed 4 cs).bind fun p₁ =>
  (expectChar '-' p₁.2).bind fun cs₁ =>
  (parseFixed 2 cs₁).bind fun p₂ =>
  (expectChar '-' p₂.2).bind fun cs₂ =>
  (parseFixed 2 cs₂).bind fun p₃ =>
  (expectChar 'T' p₃.2).bind fun cs₃ =>
  (parseFixed 2 cs₃).bind fun p₄ =>
  (expectChar ':' p₄.2).bind fun cs₄ =>
  (parseFixed 2 cs₄).bind fun p₅ =>
  (expectChar ':' p₅.2).bind fun cs₅ =>
  (parseFixed 2 cs₅).bind fun p₆ =>
  match p₆.2 with
  | [] => some ⟨p₁.1, p₂.1, p₃.1, p₄.1, p₅.1, p₆.1, 0⟩
  | c :: rest =>
    if c = '.' then
      (parseFixed 6 rest).bind fun p₇ =>
      match p₇.2 with
      | [] => some ⟨p₁.1, p₂.1, p₃.1, p₄.1, p₅.1, p₆.1, p₇.1⟩
      | _ => none
    else none

def isoformat (d : PyDateTime) : String := ⟨isoformatChars d⟩

def fromisoformat (s : String) : Option PyDateTime := fromisoChars s.data

theorem expectChar_cons_self (c : Char) (rest : List Char) :
    expectChar c (c :: rest) = some rest := by
  simp [expectChar]

theorem parseFixed_pad_nil (k n : Nat) (h : n < 10 ^ k) :
    parseFixed k (padNum k n) = some (n, []) := by
  have := parseFixed_pad k n [] h
  simpa using this

theorem fromisoChars_isoformatChars (d : PyDateTime) (h : d.Wf) :
    fromisoChars (isoformatChars d) = some d := by
  obtain ⟨h1, h2, h3, h4, h5, h6, h7⟩ := h
  unfold fromisoChars isoformatChars
  by_cases hm : d.microsecond = 0
  · simp only [if_pos hm, List.append_nil, parseFixed_pad, h1, h2, h3, h4, h5,
      Option.some_bind, expectChar_cons_self]
    rw [parseFixed_pad_nil 2 d.second h6]
    simp only [Option.some_bind]
    rw [← hm]
  · simp only [if_neg hm, parseFixed_pad, h1, h2, h3, h4, h5, h6,
      Option.some_bind, expectChar_cons_self]
    rw [if_pos trivial, parseFixed_pad_nil 6 d.microsecond h7]
    simp only [Option.some_bind]

theorem fromisoformat_isoformat (d : PyDateTime) (h : d.Wf) :
    fromisoformat (isoformat d) = some d :=
  fromisoChars_isoformatChars d h

/-!
## Part 13 — `data_models.py`: the forecast payload and its serialization

The cache stores `json.dump(forecast.to_dict())` and reads it back with
`json.load` followed by `ForecastResult.from_dict`.  JSON text is modelled
by its parse tree `JValue` (CPython's `json` round-trips numbers, strings,
booleans, null, arrays and objects losslessly — floats via `repr`), so
`json.dump`/`json.load` is the identity on `JValue` and a Python float is a
`ℚ`.  `to_dict`/`from_dict` below mirror `data_models.py` lines 41–115;
`from_dict` is `Option`-valued because the Python code raises (`KeyError`,
`TypeError`, `fromisoformat` `ValueError`) on malformed input. -/
inductive JValue where
  | jnull : JValue
  | jbool : Bool → JValue
  | jnum : ℚ → JValue
  | jstr : String → JValue
  | jarr : List JValue → JValue
  | jobj : List (String × JValue) → JValue

/-- `data[k]` / `data.get(k)` on a parsed JSON object. -/
def jget (j : JValue) (k : String) : Option JValue :=
  match j with
  | .jobj l => l.lookup k
  | _ => none

structure Location where
  latitude : ℚ
  longitude : ℚ
  region : String
deriving DecidableEq

structure RawWeatherData where
  precipitation_mm : ℚ
  temp_max_c : ℚ
  temp_min_c : ℚ
  temp_mean_c : ℚ
  humidity_percent : ℚ
  wind_speed_ms : ℚ
deriving DecidableEq

structure ForecastDay where
  date : PyDateTime
  rain_risk : ℚ
  temp_extreme : ℚ
  soil_moisture_proxy : ℚ
  confidence_score : ℚ
  raw_weather : RawWeatherData
deriving DecidableEq

structure ForecastMetadata where
  model_version : String
  generated_at : PyDateTime
  cache_hit : Bool
  inference_time_ms : Int
  era5_timestamp : Option PyDateTime
deriving DecidableEq

structure ForecastResult where
  location : Location
  forecast_days : List ForecastDay
  metadata : ForecastMetadata
deriving DecidableEq

/-- `dataclasses.asdict` on `Location`. -/
def Location.asdict (l : Location) : JValue :=
  .jobj [("latitude", .jnum l.latitude), ("longitude", .jnum l.longitude),
    ("region", .jstr l.region)]

/-- `dataclasses.asdict` on `RawWeatherData`. -/
def RawWeatherData.asdict (w : RawWeatherData) : JValue :=
  .jobj [("precipitation_mm", .jnum w.precipitation_mm), ("temp_max_c", .jnum w.temp_max_c),
    ("temp_min_c", .jnum w.temp_min_c), ("temp_mean_c", .jnum w.temp_mean_c),
    ("humidity_percent", .jnum w.humidity_percent), ("wind_speed_ms", .jnum w.wind_speed_ms)]

/-- `ForecastDay.to_dict` (lines 41–45): `asdict(self)` with the `date`
replaced by its ISO string. -/
def ForecastDay.to_dict (fd : ForecastDay) : JValue :=
  .jobj [("date", .jstr (isoformat fd.date)), ("rain_risk", .jnum fd.rain_risk),
    ("temp_extreme", .jnum fd.temp_extreme),
    ("soil_moisture_proxy", .jnum fd.soil_moisture_proxy),
    ("confidence_score", .jnum fd.confidence_score),
    ("raw_weather", fd.raw_weather.asdict)]

/-- `ForecastMetadata.to_dict` (lines 65–71): ISO string for
`generated_at`; `era5_timestamp` stays `null` when `None` (the
`if self.era5_timestamp:` guard). -/
def ForecastMetadata.to_dict (m : ForecastMetadata) : JValue :=
  .jobj [("model_version", .jstr m.model_version),
    ("generated_at", .jstr (isoformat m.generated_at)),
    ("cache_hit", .jbool m.cache_hit),
    ("inference_time_ms", .jnum (m.inference_time_ms : ℚ)),
    ("era5_timestamp", match m.era5_timestamp with
      | none => .jnull
      | some t => .jstr (isoformat t))]

/-- `ForecastResult.to_dict` (lines 90–96). -/
def ForecastResult.to_dict (r : ForecastResult) : JValue :=
  .jobj [("location", r.location.asdict),
    ("forecast_days", .jarr (r.forecast_days.map ForecastDay.to_dict)),
    ("metadata", r.metadata.to_dict)]

/-- `Location(**data['location'])`. -/
def Location.from_dict (j : JValue) : Option Location :=
  match jget j "latitude", jget j "longitude", jget j "region" with
  | some (.jnum la), some (.jnum lo), some (.jstr re) => some ⟨la, lo, re⟩
  | _, _, _ => none

/-- `RawWeatherData(**data['raw_weather'])`. -/
def RawWeatherData.from_dict (j : JValue) : Option RawWeatherData :=
  match jget j "precipitation_mm", jget j "temp_max_c", jget j "temp_min_c",
      jget j "temp_mean_c", jget j "humidity_percent", jget j "wind_speed_ms" with
  | some (.jnum p), some (.jnum tx), some (.jnum tn), some (.jnum tm), some (.jnum hu),
      some (.jnum ws) => some ⟨p, tx, tn, tm, hu, ws⟩
  | _, _, _, _, _, _ => none

/-- `ForecastDay.from_dict` (lines 47–53). -/
def ForecastDay.from_dict (j : JValue) : Option ForecastDay :=
  match jget j "date", jget j "rain_risk", jget j "temp_extreme",
      jget j "soil_moisture_proxy", jget j "confidence_score", jget j "raw_weather" with
  | some (.jstr ds), some (.jnum rr), some (.jnum te), some (.jnum sm), some (.jnum cs),
      some rwj =>
    (fromisoformat ds).bind fun dt =>
    (RawWeatherData.from_dict rwj).map fun w => ⟨dt, rr, te, sm, cs, w⟩
  | _, _, _, _, _, _ => none

/-- `ForecastMetadata.from_dict` (lines 73–80): `era5_timestamp` is parsed
only when truthy (`null` and a missing key both yield `None`);
`inference_time_ms` must be a JSON integer. -/
def ForecastMetadata.from_dict (j : JValue) : Option ForecastMetadata :=
  match jget j "model_version", jget j "generated_at", jget j "cache_hit",
      jget j "inference_time_ms" with
  | some (.jstr v), some (.jstr g), some (.jbool ch), some (.jnum q) =>
    (fromisoformat g).bind fun gd =>
    if q.den = 1 then
      match jget j "era5_timestamp" with
      | some .jnull => some ⟨v, gd, ch, q.num, none⟩
      | none => some ⟨v, gd, ch, q.num, none⟩
      | some (.jstr e) => (fromisoformat e).map fun ed => ⟨v, gd, ch, q.num, some ed⟩
      | _ => none
    else none
  | _, _, _, _ => none

/-- `ForecastResult.from_dict` (lines 102–109). -/
def ForecastResult.from_dict (j : JValue) : Option ForecastResult :=
  match jget j "location", jget j "forecast_days", jget j "metadata" with
  | some lj, some (.jarr dl), some mj =>
    (Location.from_dict lj).bind fun loc =>
    (dl.mapM ForecastDay.from_dict).bind fun days =>
    (ForecastMetadata.from_dict mj).map fun md => ⟨loc, days, md⟩
  | _, _, _ => none

/-- Every `datetime` in the payload satisfies the CPython field bounds. -/
def ForecastResult.DatesWf (r : ForecastResult) : Prop :=
  r.metadata.generated_at.Wf ∧ r.metadata.era5_timestamp.elim True PyDateTime.Wf ∧
    ∀ fd ∈ r.forecast_days, fd.date.Wf

instance (o : Option PyDateTime) : Decidable (o.elim True PyDateTime.Wf) := by
  cases o with
  | none => exact inferInstanceAs (Decidable True)
  | some t => exact inferInstanceAs (Decidable t.Wf)

instance (r : ForecastResult) : Decidable r.DatesWf := by
  unfold ForecastResult.DatesWf
  infer_instance

theorem location_from_dict_asdict (l : Location) :
    Location.from_dict l.asdict = some l := rfl

theorem rawWeatherData_from_dict_asdict (w : RawWeatherData) :
    RawWeatherData.from_dict w.asdict = some w := rfl

theorem forecastDay_from_dict_to_dict (fd : ForecastDay) (h : fd.date.Wf) :
    ForecastDay.from_dict fd.to_dict = some fd := by
  have h1 : ForecastDay.from_dict fd.to_dict =
      (fromisoformat (isoformat fd.date)).bind fun dt =>
      (RawWeatherData.from_dict fd.raw_weather.asdict).map fun w =>
        ⟨dt, fd.rain_risk, fd.temp_extreme, fd.soil_moisture_proxy, fd.confidence_score, w⟩ :=
    rfl
  rw [h1, fromisoformat_isoformat fd.date h, rawWeatherData_from_dict_asdict]
  rfl

theorem forecastMetadata_from_dict_to_dict (m : ForecastMetadata)
    (hg : m.generated_at.Wf) (he : m.era5_timestamp.elim True PyDateTime.Wf) :
    ForecastMetadata.from_dict m.to_dict = some m := by
  obtain ⟨v, g, ch, ms, e⟩ := m
  cases e with
  | none =>
    have h1 : ForecastMetadata.from_dict (ForecastMetadata.to_dict ⟨v, g, ch, ms, none⟩) =
        (fromisoformat (isoformat g)).bind fun gd =>
        (if ((ms : ℚ)).den = 1 then
          some ⟨v, gd, ch, ((ms : ℚ)).num, none⟩
        else none) := rfl
    rw [h1, fromisoformat_isoformat g hg]
    simp [Rat.den_intCast, Rat.num_intCast]
  | some t =>
    have h1 : ForecastMetadata.from_dict (ForecastMetadata.to_dict ⟨v, g, ch, ms, some t⟩) =
        (fromisoformat (isoformat g)).bind fun gd =>
        (if ((ms : ℚ)).den = 1 then
          (fromisoformat (isoformat t)).map fun ed => ⟨v, gd, ch, ((ms : ℚ)).num, some ed⟩
        else none) := rfl
    have ht : t.Wf := by simpa [Option.elim] using he
    rw [h1, fromisoformat_isoformat g hg]
    simp [Rat.den_intCast, Rat.num_intCast, fromisoformat_isoformat t ht]

theorem mapM_from_dict_to_dict (days : List ForecastDay) (h : ∀ fd ∈ days, fd.date.Wf) :
    (days.map ForecastDay.to_dict).mapM ForecastDay.from_dict = some days := by
  induction days with
  | nil => rfl
  | cons d ds ih =>
    rw [List.map_cons, List.mapM_cons, forecastDay_from_dict_to_dict d (h d (by simp)),
      ih (fun fd hfd => h fd (by simp [hfd]))]
    rfl

/-- The payload round-trips losslessly through `to_dict`/`from_dict`
(`data_models.py`), for every payload whose datetimes satisfy CPython's
field bounds. -/
theorem forecastResult_from_dict_to_dict (r : ForecastResult) (h : r.DatesWf) :
    ForecastResult.from_dict r.to_dict = some r := by
  obtain ⟨loc, days, md⟩ := r
  obtain ⟨hg, he, hd⟩ := h
  have h1 : ForecastResult.from_dict (ForecastResult.to_dict ⟨loc, days, md⟩) =
      (Location.from_dict loc.asdict).bind fun l =>
      ((days.map ForecastDay.to_dict).mapM ForecastDay.from_dict).bind fun ds =>
      (ForecastMetadata.from_dict md.to_dict).map fun mm =>
        (⟨l, ds, mm⟩ : ForecastResult) := rfl
  rw [h1, location_from_dict_asdict, mapM_from_dict_to_dict days hd,
    forecastMetadata_from_dict_to_dict md hg he]
  rfl

/-!
## Part 14 — `cache_manager.py`: the TTL file cache

The filesystem under `cache_dir` is a list of (path, file) pairs, a path
being the calendar-day directory index paired with the cache key; a file
carries its `st_mtime` and either parseable JSON or corrupt bytes.
Wall-clock instants (`datetime.now()`, `st_mtime`) are rationals; the
current calendar day is an integer `today`, yesterday's directory is
`today - 1`.  `Except.error` models an exception escaping the public
method. -/

/-- Python `round(x, 2)` rounds half to even; embedded on the exact
rational value (on the coordinate samples used here this agrees with
CPython's rounding of the nearest double). -/
def roundHalfEven (q : ℚ) : ℤ :=
  if q - ⌊q⌋ < 1 / 2 then ⌊q⌋
  else if 1 / 2 < q - ⌊q⌋ then ⌊q⌋ + 1
  else if ⌊q⌋ % 2 = 0 then ⌊q⌋ else ⌊q⌋ + 1

def round2 (q : ℚ) : ℚ := (roundHalfEven (q * 100) : ℚ) / 100

abbrev CacheKey := ℚ × ℚ × ℕ

/-- `_generate_cache_key` (lines 52–77): rounds both coordinates to two
decimal places and renders `forecast_{lat}_{lon}_{days}_{md5-fragment}` —
a deterministic function of the triple below, which therefore models the
key.  (Distinct triples could in principle collide through the 8-character
md5 fragment; no claim depends on key injectivity.) -/
def generate_cache_key (lat lon : ℚ) (forecast_days : ℕ) : CacheKey :=
  (round2 lat, round2 lon, forecast_days)

inductive FileContent where
  | good : JValue → FileContent
  | corrupt : FileContent

structure CacheEntry where
  mtime : ℚ
  content : FileContent

abbrev CachePath := Int × CacheKey

abbrev Store := List (CachePath × CacheEntry)

def Store.find : Store → CachePath → Option CacheEntry
  | [], _ => none
  | (q, e) :: rest, p => if q = p then some e else Store.find rest p

/-- `Path.unlink()`. -/
def Store.erase (st : Store) (p : CachePath) : Store :=
  st.filter fun q => decide (q.1 ≠ p)

/-- `open(path, 'w')` + `json.dump`: replaces any previous file at the
path. -/
def Store.insert (st : Store) (p : CachePath) (e : CacheEntry) : Store :=
  (p, e) :: st.erase p

theorem Store.find_insert_self (st : Store) (p : CachePath) (e : CacheEntry) :
    Store.find (st.insert p e) p = some e := by
  simp [Store.insert, Store.find]

structure Fs where
  mkdirFails : Bool
  writeFails : Bool
deriving DecidableEq

/-- `_get_cache_path` (lines 79–93): `date_dir.mkdir(parents=True,
exist_ok=True)` then `date_dir / f"{key}.json"`.  `mkdir` can raise
`OSError` (disk full, permissions), which this helper does not catch. -/
def get_cache_path (fs : Fs) (today : Int) (key : CacheKey) : Except Unit CachePath :=
  if fs.mkdirFails then .error () else .ok (today, key)

/-- `_is_cache_valid` (lines 95–112): the file exists and
`(now - st_mtime) < ttl` (strict). -/
def is_cache_valid (st : Store) (now ttl : ℚ) (p : CachePath) : Bool :=
  match Store.find st p with
  | none => false
  | some e => decide (now - e.mtime < ttl)

/-- `json.load` followed by `ForecastResult.from_dict`; `none` is the
exception path (unparseable bytes or malformed structure). -/
def parseEntry (e : CacheEntry) : Option ForecastResult :=
  match e.content with
  | .corrupt => none
  | .good j => ForecastResult.from_dict j

/-- `get_forecast` (lines 114–187): check the current-day file first —
on a read/parse failure there, delete the file and return `None`
(lines 151–158); otherwise check yesterday's file — on a read/parse
failure there, return `None` *without* deleting (lines 178–180); else
miss.  The result is paired with the resulting store.  `Except.error`
models an exception escaping `get_forecast`: only `_get_cache_path`
(called at line 135, inside the lock but outside any `try`) can raise. -/
def get_forecast (fs : Fs) (st : Store) (now ttl : ℚ) (today : Int)
    (lat lon : ℚ) (forecast_days : ℕ) :
    Except Unit (Option ForecastResult × Store) :=
  let key := generate_cache_key lat lon forecast_days
  match get_cache_path fs today key with
  | .error e => .error e
  | .ok cache_path =>
    if is_cache_valid st now ttl cache_path then
      match Store.find st cache_path with
      | some entry =>
        match parseEntry entry with
        | some r => .ok (some r, st)
        | none => .ok (none, Store.erase st cache_path)
      | none => .ok (none, st)
    else
      if is_cache_valid st now ttl (today - 1, key) then
        match Store.find st (today - 1, key) with
        | some entry =>
          match parseEntry entry with
          | some r => .ok (some r, st)
          | none => .ok (none, st)
        | none => .ok (none, st)
      else
        .ok (none, st)

/-- `set_forecast` (lines 189–229): `_get_cache_path` is called *before*
the `try:` block (line 209), so a `mkdir` failure escapes the call;
serialization and the file write are inside the `try:` and report `False`
on failure. -/
def set_forecast (fs : Fs) (st : Store) (now : ℚ) (today : Int)
    (lat lon : ℚ) (forecast_days : ℕ) (forecast : ForecastResult) :
    Except Unit (Bool × Store) :=
  let key := generate_cache_key lat lon forecast_days
  match get_cache_path fs today key with
  | .error e => .error e
  | .ok cache_path =>
    if fs.writeFails then .ok (false, st)
    else .ok (true, st.insert cache_path ⟨now, .good forecast.to_dict⟩)

/-- The `total_forecasts` field of `get_cache_stats` (lines 326–359):
the number of `.json` files under the cache directory. -/
def get_cache_stats_total (st : Store) : Nat := st.length

/-!
## Part 15 — Claim C6
-/

/-- Claim C6: for every payload `P` (with CPython-valid dates) and
coordinates that round equal at two decimal places, `set(lat, lon, h, P)`
followed by `get(lat', lon', h)` within the TTL succeeds and returns a
payload equal to `P`: key derivation collapses near-duplicate coordinates,
and the payload round-trips losslessly through
`to_dict`/`json`/`from_dict`. -/
theorem cache_set_get_roundtrip (fs : Fs) (st : Store) (t₀ now ttl : ℚ) (today : Int)
    (lat lon lat' lon' : ℚ) (days : ℕ) (P : ForecastResult)
    (hmk : fs.mkdirFails = false) (hw : fs.writeFails = false)
    (hlat : round2 lat = round2 lat') (hlon : round2 lon = round2 lon')
    (hdates : P.DatesWf) (httl : now - t₀ < ttl) :
    ∃ st', set_forecast fs st t₀ today lat lon days P = .ok (true, st') ∧
      get_forecast fs st' now ttl today lat' lon' days = .ok (some P, st') := by
  have hkey : generate_cache_key lat' lon' days = generate_cache_key lat lon days := by
    unfold generate_cache_key
    rw [hlat, hlon]
  refine ⟨(st.insert (today, generate_cache_key lat lon days) ⟨t₀, .good P.to_dict⟩), ?_, ?_⟩
  · unfold set_forecast get_cache_path
    rw [hmk, hw]
    rfl
  · unfold get_forecast get_cache_path
    rw [hmk]
    dsimp only
    rw [if_neg Bool.false_ne_true]
    dsimp only
    rw [hkey]
    have hfind := Store.find_insert_self st (today, generate_cache_key lat lon days)
      ⟨t₀, .good P.to_dict⟩
    have hvalid : is_cache_valid
        (st.insert (today, generate_cache_key lat lon days) ⟨t₀, .good P.to_dict⟩) now ttl
        (today, generate_cache_key lat lon days) = true := by
      unfold is_cache_valid
      rw [hfind]
      exact decide_eq_true httl
    rw [hvalid, if_pos rfl, hfind]
    unfold parseEntry
    dsimp only
    rw [forecastResult_from_dict_to_dict P hdates]

/-- A concrete forecast payload, shaped like the repository's own test
fixture (`test_cache_manager.py`). -/
def sampleForecast : ForecastResult :=
  ⟨⟨18.5, 73.8, "Pune, Maharashtra"⟩,
    [⟨⟨2026, 10, 12, 0, 0, 0, 0⟩, 30, 20, 60, 95 / 100,
      ⟨10, 32, 22, 27, 65, 35 / 10⟩⟩],
    ⟨"v0.1", ⟨2026, 10, 12, 8, 30, 0, 500⟩, false, 5000,
      some ⟨2026, 10, 12, 6, 0, 0, 0⟩⟩⟩

/-- Claim C6, witness: `set(18.521, 73.857, 10, P)` at time 0 followed by
`get(18.519, 73.858, 10)` at time 0 with `ttl = 21600` returns exactly
`P` — both coordinate pairs round to `(18.52, 73.86)`. -/
theorem cache_set_get_roundtrip_witness :
    (⟨false, false⟩ : Fs).mkdirFails = false ∧
    (⟨false, false⟩ : Fs).writeFails = false ∧
    round2 18.521 = round2 18.519 ∧
    round2 73.857 = round2 73.858 ∧
    sampleForecast.DatesWf ∧
    ((0 : ℚ) - 0 < 21600) ∧
    (∃ st', set_forecast ⟨false, false⟩ [] 0 0 18.521 73.857 10 sampleForecast =
        .ok (true, st') ∧
      get_forecast ⟨false, false⟩ st' 0 21600 0 18.519 73.858 10 = .ok (some sampleForecast, st')) :=
  ⟨rfl, rfl, by norm_num [round2, roundHalfEven], by norm_num [round2, roundHalfEven],
    by decide, by norm_num,
    cache_set_get_roundtrip ⟨false, false⟩ [] 0 0 21600 0 18.521 73.857 18.519 73.858 10
      sampleForecast rfl rfl (by norm_num [round2, roundHalfEven])
      (by norm_num [round2, roundHalfEven]) (by decide) (by norm_num)⟩

/-!
## Part 16 — Claim C7
-/

/-- Claim C7: an existing current-day entry is valid iff
`now - written_at < ttl`, where `written_at` is the file's modification
time; a `get` that finds it within the TTL returns its (parseable) value;
a `get` that finds it at age `≥ ttl` treats it exactly like an absent
entry and returns absent (no entry in yesterday's bucket here). -/
theorem cache_ttl_semantics (fs : Fs) (st : Store) (now ttl : ℚ) (today : Int)
    (lat lon : ℚ) (days : ℕ) (e : CacheEntry)
    (hmk : fs.mkdirFails = false)
    (hfind : Store.find st (today, generate_cache_key lat lon days) = some e)
    (hyest : Store.find st (today - 1, generate_cache_key lat lon days) = none) :
    (is_cache_valid st now ttl (today, generate_cache_key lat lon days) = true ↔
      now - e.mtime < ttl) ∧
    (∀ r, now - e.mtime < ttl → parseEntry e = some r →
      get_forecast fs st now ttl today lat lon days = .ok (some r, st)) ∧
    (ttl ≤ now - e.mtime →
      get_forecast fs st now ttl today lat lon days = .ok (none, st)) := by
  have hiv : is_cache_valid st now ttl (today, generate_cache_key lat lon days) =
      decide (now - e.mtime < ttl) := by
    unfold is_cache_valid
    rw [hfind]
  refine ⟨by rw [hiv]; exact decide_eq_true_iff, ?_, ?_⟩
  · intro r hlt hparse
    unfold get_forecast get_cache_path
    rw [hmk]
    dsimp only
    rw [if_neg Bool.false_ne_true]
    dsimp only
    rw [hiv, decide_eq_true hlt, if_pos rfl, hfind]
    dsimp only
    rw [hparse]
  · intro hge
    unfold get_forecast get_cache_path
    rw [hmk]
    dsimp only
    rw [if_neg Bool.false_ne_true]
    dsimp only
    rw [hiv, decide_eq_false (by linarith), if_neg Bool.false_ne_true]
    have hyv : is_cache_valid st now ttl (today - 1, generate_cache_key lat lon days) =
        false := by
      unfold is_cache_valid
      rw [hyest]
    rw [hyv, if_neg Bool.false_ne_true]

def ttlWitnessStore : Store :=
  [((0, generate_cache_key 18.5 73.8 10), ⟨0, .good sampleForecast.to_dict⟩)]

/-- Claim C7, witness: with `ttl = 1` second, an entry written at time 0
and read at time 0 returns its payload; read again at time 1.5 it is
expired and `get` returns absent. -/
theorem cache_ttl_semantics_witness :
    (⟨false, false⟩ : Fs).mkdirFails = false ∧
    Store.find ttlWitnessStore (0, generate_cache_key 18.5 73.8 10) =
      some ⟨0, .good sampleForecast.to_dict⟩ ∧
    Store.find ttlWitnessStore (0 - 1, generate_cache_key 18.5 73.8 10) = none ∧
    get_forecast ⟨false, false⟩ ttlWitnessStore 0 1 0 18.5 73.8 10 =
      .ok (some sampleForecast, ttlWitnessStore) ∧
    get_forecast ⟨false, false⟩ ttlWitnessStore (3 / 2) 1 0 18.5 73.8 10 =
      .ok (none, ttlWitnessStore) := by
  have hfind : Store.find ttlWitnessStore (0, generate_cache_key 18.5 73.8 10) =
      some ⟨0, .good sampleForecast.to_dict⟩ := by
    unfold ttlWitnessStore Store.find
    rw [if_pos rfl]
  have hyest : Store.find ttlWitnessStore (0 - 1, generate_cache_key 18.5 73.8 10) = none := by
    unfold ttlWitnessStore Store.find
    rw [if_neg (by simp)]
    rfl
  have hparse : parseEntry ⟨0, .good sampleForecast.to_dict⟩ = some sampleForecast := by
    unfold parseEntry
    exact forecastResult_from_dict_to_dict sampleForecast (by decide)
  refine ⟨rfl, hfind, hyest, ?_, ?_⟩
  · exact (cache_ttl_semantics ⟨false, false⟩ ttlWitnessStore 0 1 0 18.5 73.8 10 _
      rfl hfind hyest).2.1 sampleForecast (by norm_num) hparse
  · exact (cache_ttl_semantics ⟨false, false⟩ ttlWitnessStore (3 / 2) 1 0 18.5 73.8 10 _
      rfl hfind hyest).2.2 (by norm_num)

/-!
## Part 17 — Claim C8
-/

/-- Claim C8 (amended): a `get` that finds a non-expired corrupt entry in
the **current** day's bucket deletes it and returns absent; a non-expired
corrupt entry found in **yesterday's** bucket (no current-day entry) also
makes `get` return absent, but is *not* deleted — the file, and its
`stats()` count, remain. -/
theorem corrupt_entry_selfheal (fs : Fs) (st : Store) (now ttl : ℚ) (today : Int)
    (lat lon : ℚ) (days : ℕ) (e : CacheEntry) (hmk : fs.mkdirFails = false)
    (hage : now - e.mtime < ttl) (hcorrupt : parseEntry e = none) :
    (Store.find st (today, generate_cache_key lat lon days) = some e →
      get_forecast fs st now ttl today lat lon days =
        .ok (none, Store.erase st (today, generate_cache_key lat lon days))) ∧
    (Store.find st (today, generate_cache_key lat lon days) = none →
      Store.find st (today - 1, generate_cache_key lat lon days) = some e →
      get_forecast fs st now ttl today lat lon days = .ok (none, st)) := by
  constructor
  · intro hfind
    unfold get_forecast get_cache_path
    rw [hmk]
    dsimp only
    rw [if_neg Bool.false_ne_true]
    dsimp only
    have hiv : is_cache_valid st now ttl (today, generate_cache_key lat lon days) = true := by
      unfold is_cache_valid
      rw [hfind]
      exact decide_eq_true hage
    rw [hiv, if_pos rfl, hfind]
    dsimp only
    rw [hcorrupt]
  · intro hnone hfind
    unfold get_forecast get_cache_path
    rw [hmk]
    dsimp only
    rw [if_neg Bool.false_ne_true]
    dsimp only
    have hiv : is_cache_valid st now ttl (today, generate_cache_key lat lon days) = false := by
      unfold is_cache_valid
      rw [hnone]
    rw [hiv, if_neg Bool.false_ne_true]
    have hyv : is_cache_valid st now ttl (today - 1, generate_cache_key lat lon days) =
        true := by
      unfold is_cache_valid
      rw [hfind]
      exact decide_eq_true hage
    rw [hyv, if_pos rfl, hfind]
    dsimp only
    rw [hcorrupt]

def corruptKey : CacheKey := generate_cache_key 18.5 73.8 10

def todayCorruptStore : Store := [((0, corruptKey), ⟨0, .corrupt⟩)]

def yesterdayCorruptStore : Store := [((-1, corruptKey), ⟨0, .corrupt⟩)]

/-- Claim C8, counterexample: a non-expired corrupt entry sitting in
yesterday's bucket: `get` returns absent but does **not** delete it — the
resulting store is unchanged and `stats()` still counts the file — while
the claim asserts the read deletes the corrupt entry whether it lies in
the current bucket or the preceding one. -/
theorem yesterday_corrupt_not_deleted :
    get_forecast ⟨false, false⟩ yesterdayCorruptStore 0 3600 0 18.5 73.8 10 =
      .ok (none, yesterdayCorruptStore) ∧
    get_cache_stats_total yesterdayCorruptStore = 1 := by
  refine ⟨?_, rfl⟩
  unfold get_forecast get_cache_path
  dsimp only
  rw [if_neg Bool.false_ne_true]
  dsimp only
  have hnone : Store.find yesterdayCorruptStore (0, generate_cache_key 18.5 73.8 10) =
      none := by
    unfold yesterdayCorruptStore Store.find corruptKey
    rw [if_neg (by simp)]
    rfl
  have hfind : Store.find yesterdayCorruptStore ((0 : Int) - 1, generate_cache_key 18.5 73.8 10) =
      some ⟨0, .corrupt⟩ := by
    unfold yesterdayCorruptStore Store.find corruptKey
    rw [if_pos (by norm_num)]
  have hiv : is_cache_valid yesterdayCorruptStore 0 3600
      (0, generate_cache_key 18.5 73.8 10) = false := by
    unfold is_cache_valid
    rw [hnone]
  have hyv : is_cache_valid yesterdayCorruptStore 0 3600
      ((0 : Int) - 1, generate_cache_key 18.5 73.8 10) = true := by
    unfold is_cache_valid
    rw [hfind]
    exact decide_eq_true (by norm_num)
  rw [hiv, if_neg Bool.false_ne_true, hyv, if_pos rfl, hfind]
  rfl

/-- Claim C8, witness for the amended claim: at `ttl = 3600`, a corrupt
entry of age 0 in the current bucket is deleted by `get` (store becomes
empty), while the same corrupt entry in yesterday's bucket survives the
`get` unchanged. -/
theorem corrupt_entry_selfheal_witness :
    ((0 : ℚ) - 0 < 3600 ∧ parseEntry ⟨0, .corrupt⟩ = none) ∧
    get_forecast ⟨false, false⟩ todayCorruptStore 0 3600 0 18.5 73.8 10 =
      .ok (none, Store.erase todayCorruptStore (0, generate_cache_key 18.5 73.8 10)) ∧
    get_forecast ⟨false, false⟩ yesterdayCorruptStore 0 3600 0 18.5 73.8 10 =
      .ok (none, yesterdayCorruptStore) := by
  have hfind1 : Store.find todayCorruptStore (0, generate_cache_key 18.5 73.8 10) =
      some ⟨0, .corrupt⟩ := by
    unfold todayCorruptStore Store.find corruptKey
    rw [if_pos rfl]
  have hnone2 : Store.find yesterdayCorruptStore (0, generate_cache_key 18.5 73.8 10) =
      none := by
    unfold yesterdayCorruptStore Store.find corruptKey
    rw [if_neg (by simp)]
    rfl
  have hfind2 : Store.find yesterdayCorruptStore ((0 : Int) - 1, generate_cache_key 18.5 73.8 10) =
      some ⟨0, .corrupt⟩ := by
    unfold yesterdayCorruptStore Store.find corruptKey
    rw [if_pos (by norm_num)]
  exact ⟨⟨by norm_num, rfl⟩,
    (corrupt_entry_selfheal ⟨false, false⟩ todayCorruptStore 0 3600 0 18.5 73.8 10
      ⟨0, .corrupt⟩ rfl (by norm_num) rfl).1 hfind1,
    (corrupt_entry_selfheal ⟨false, false⟩ yesterdayCorruptStore 0 3600 0 18.5 73.8 10
      ⟨0, .corrupt⟩ rfl (by norm_num) rfl).2 hnone2 hfind2⟩

/-!
## Part 18 — Claim C9
-/

/-- Claim C9, counterexample: when creating the date directory fails
(e.g. disk full or permission error during `mkdir` inside
`_get_cache_path`), `set_forecast` raises instead of returning `False`:
`_get_cache_path` is called at line 209, *outside* the `try:` block, so
the exception escapes the public call boundary. -/
theorem set_forecast_raises_on_mkdir_failure :
    set_forecast ⟨true, false⟩ [] 0 0 18.5 73.8 10 sampleForecast = .error () := rfl

/-- Claim C9 (amended): provided creating the date directory succeeds,
cache failures never escape the public call boundary: `set_forecast`
always returns (reporting a file-write failure as `False`, storing
nothing, never raising), and `get_forecast` always returns (degrading
any read failure to a miss).  A `mkdir` failure inside `_get_cache_path`,
however, escapes both `set_forecast` and `get_forecast`. -/
theorem cache_failures_contained (fs : Fs) (st : Store) (now ttl : ℚ) (today : Int)
    (lat lon : ℚ) (days : ℕ) (P : ForecastResult) (hmk : fs.mkdirFails = false) :
    (∃ b st', set_forecast fs st now today lat lon days P = .ok (b, st')) ∧
    (fs.writeFails = true → set_forecast fs st now today lat lon days P = .ok (false, st)) ∧
    (∃ o st', get_forecast fs st now ttl today lat lon days = .ok (o, st')) := by
  refine ⟨?_, ?_, ?_⟩
  · unfold set_forecast get_cache_path
    rw [hmk]
    dsimp only
    rw [if_neg Bool.false_ne_true]
    dsimp only
    by_cases hw : fs.writeFails = true
    · rw [if_pos hw]
      exact ⟨false, st, rfl⟩
    · rw [if_neg hw]
      exact ⟨true, _, rfl⟩
  · intro hw
    unfold set_forecast get_cache_path
    rw [hmk]
    dsimp only
    rw [if_neg Bool.false_ne_true]
    dsimp only
    rw [if_pos hw]
  · unfold get_forecast get_cache_path
    rw [hmk]
    dsimp only
    rw [if_neg Bool.false_ne_true]
    dsimp only
    split <;> (try split) <;> (try split) <;> (try split) <;> exact ⟨_, _, rfl⟩

/-- Claim C9, witness: with the directory creation succeeding but the
file write failing (disk full during `json.dump`), `set_forecast` returns
`False` and stores nothing — it does not raise — and `get_forecast`
returns a miss. -/
theorem cache_failures_contained_witness :
    (⟨false, true⟩ : Fs).mkdirFails = false ∧
    ((∃ b st', set_forecast ⟨false, true⟩ [] 0 0 18.5 73.8 10 sampleForecast = .ok (b, st')) ∧
      ((⟨false, true⟩ : Fs).writeFails = true →
        set_forecast ⟨false, true⟩ [] 0 0 18.5 73.8 10 sampleForecast = .ok (false, [])) ∧
      (∃ o st', get_forecast ⟨false, true⟩ [] 0 3600 0 18.5 73.8 10 = .ok (o, st'))) :=
  ⟨rfl, cache_failures_contained ⟨false, true⟩ [] 0 3600 0 18.5 73.8 10 sampleForecast rfl⟩

end ClimaSense
